import Mathlib

/-!
# Verification of the PDF text-cleaning pipeline (`clean.py`)

A shallow embedding of the heuristic text-cleaning program: strings are
`List Char`, each Python string transformation is translated to an
executable Lean function, and the per-page processing loop is a fold over
a list of page inputs.  Regular-expression substitutions are embedded by
their deterministic operational behaviour (leftmost scan, greedy runs),
restricted to the ASCII fragment of the character classes that the
program's regexes use (`\s`, `\d`, `[A-Z]`, `\w`, …).
-/

namespace CleanPdf

/-- ASCII whitespace, the fragment of Python's `\s` / `str.strip()` class
relevant here: space, tab, newline, carriage return, vertical tab, form feed. -/
def isPyWs (c : Char) : Bool :=
  c == ' ' || c == '\t' || c == '\n' || c == '\r' || c == '\x0b' || c == '\x0c'

/-- Python's `\d` (ASCII fragment). -/
def isDigitC (c : Char) : Bool :=
  48 ≤ c.toNat && c.toNat ≤ 57

/-- The regex class `[A-Z]`. -/
def isCap (c : Char) : Bool :=
  65 ≤ c.toNat && c.toNat ≤ 90

/-- The regex class `[a-z]`. -/
def isLowAZ (c : Char) : Bool :=
  97 ≤ c.toNat && c.toNat ≤ 122

/-- The regex class `[A-Za-z]`. -/
def isLetterAZ (c : Char) : Bool :=
  isCap c || isLowAZ c

/-- The regex class `[a-zA-Z0-9]`. -/
def isAlnumAscii (c : Char) : Bool :=
  isLetterAZ c || isDigitC c

/-- The regex class `[a-zA-Z0-9-]` used inside the `www.` URL alternative. -/
def isAlnumDash (c : Char) : Bool :=
  isAlnumAscii c || c == '-'

/-- Python's `\w` (ASCII fragment): letters, digits and underscore. -/
def isWordChar (c : Char) : Bool :=
  isAlnumAscii c || c == '_'

/-- Membership in the CJK ranges of `CHINESE_CHAR_PATTERN`:
`[㐀-䶿一-鿿豈-﫿\U00020000-\U0002CEAF\U0002F800-\U0002FA1F]`. -/
def isCJK (c : Char) : Bool :=
  (0x3400 ≤ c.toNat && c.toNat ≤ 0x4DBF) ||
  (0x4E00 ≤ c.toNat && c.toNat ≤ 0x9FFF) ||
  (0xF900 ≤ c.toNat && c.toNat ≤ 0xFAFF) ||
  (0x20000 ≤ c.toNat && c.toNat ≤ 0x2CEAF) ||
  (0x2F800 ≤ c.toNat && c.toNat ≤ 0x2FA1F)

/-- The Unicode replacement character `U+FFFD`, the "mojibake" glyph `�`. -/
def fffd : Char := '�'

/-- Bullet glyphs of the line-drop rule `^[\-••▪◦‣♦]+\s+`. -/
def isBulletC (c : Char) : Bool :=
  c == '-' || c == '•' || c == '▪' || c == '◦' || c == '‣' || c == '♦'

/-- The symbol class `MATH_SYMBOLS` of the math-likeness detector. -/
def mathSymbolChars : List Char :=
  ['=', '<', '>', '≈', '≤', '≥', '±', '×', '÷', '∑', '∏', '∫', '√', '∞', '°',
   'π', 'μ', 'σ', 'Δ', 'λ', 'α', 'β', 'γ', 'θ', 'φ', 'ψ', 'ω', '/', '\\', '^',
   '\x7b', '\x7d', '_']

def isMathSymbol (c : Char) : Bool :=
  mathSymbolChars.contains c

/-- `pat` begins the list `s` (Boolean string-prefix test). -/
def beginsWith : List Char → List Char → Bool
  | [], _ => true
  | _ :: _, [] => false
  | p :: ps, c :: cs => p == c && beginsWith ps cs

/-- Python's `pat in s` substring test. -/
def containsSub (pat : List Char) : List Char → Bool
  | [] => beginsWith pat []
  | c :: cs => beginsWith pat (c :: cs) || containsSub pat cs

/-- Python `str.lstrip()` (ASCII-whitespace fragment). -/
def pyLstrip (s : List Char) : List Char :=
  s.dropWhile isPyWs

/-- Python `str.rstrip()` (ASCII-whitespace fragment). -/
def pyRstrip (s : List Char) : List Char :=
  (s.reverse.dropWhile isPyWs).reverse

/-- Python `str.strip()` (ASCII-whitespace fragment). -/
def pyStrip (s : List Char) : List Char :=
  pyRstrip (pyLstrip s)

/-- Python `str.strip("\n")`. -/
def stripNewlines (s : List Char) : List Char :=
  ((s.dropWhile (· == '\n')).reverse.dropWhile (· == '\n')).reverse

/-- Python `str.lower()` (ASCII fragment). -/
def pyLower (s : List Char) : List Char :=
  s.map Char.toLower

/-- Python `str.upper()` (ASCII fragment). -/
def pyUpper (s : List Char) : List Char :=
  s.map Char.toUpper

/-- `remove_chinese_characters`: `CHINESE_CHAR_PATTERN.sub("", text)`. -/
def removeChinese (s : List Char) : List Char :=
  s.filter (fun c => !isCJK c)

/-- The literal replacement `page_text.replace("��C", "°C")` (two replacement
characters followed by `C`), leftmost non-overlapping occurrences. -/
def replaceFFC : List Char → List Char
  | [] => []
  | [c] => [c]
  | [c, d] => [c, d]
  | c :: d :: e :: t =>
    if c = fffd ∧ d = fffd ∧ e = 'C' then '°' :: 'C' :: replaceFFC t
    else c :: replaceFFC (d :: e :: t)

/-- Auxiliary state machine for `re.sub(r"�+C", "°C", text)`: `n` counts the
pending run of replacement characters already scanned. -/
def fixRunsCA : Nat → List Char → List Char
  | n, [] => List.replicate n fffd
  | n, c :: t =>
    if c = fffd then fixRunsCA (n + 1) t
    else if c = 'C' ∧ n ≠ 0 then '°' :: 'C' :: fixRunsCA 0 t
    else List.replicate n fffd ++ c :: fixRunsCA 0 t

/-- `re.sub(r"�+C", "°C", text)`: every maximal run of replacement characters
immediately followed by `C` is rewritten to `°C`. -/
def fixRunsC (s : List Char) : List Char :=
  fixRunsCA 0 s

/-- The Celsius repair of the page loop (lines 207–211): the literal
`"��C" → "°C"` replacement followed by the broad `�+C → °C` regex. -/
def fixCelsius (s : List Char) : List Char :=
  fixRunsC (replaceFFC s)

/-- The normalization `page_text.replace("\r\n", "\n")`. -/
def replaceCRLF : List Char → List Char
  | [] => []
  | [c] => [c]
  | c :: d :: t =>
    if c = '\r' ∧ d = '\n' then '\n' :: replaceCRLF t
    else c :: replaceCRLF (d :: t)

/-- Length of the maximal run of non-whitespace characters (`[^\s]+`, greedy)
at the head of `t`. -/
def nonWsRun (t : List Char) : Nat :=
  (t.takeWhile (fun c => !isPyWs c)).length

/-- Length of the maximal run of whitespace (`\s*`, greedy) at the head of `t`. -/
def wsRun (t : List Char) : Nat :=
  (t.takeWhile isPyWs).length

/-- The match of `URL_PATTERN` anchored at the head of `t`, as the number of
consumed characters.  The three alternatives `https?://[^\s]+`,
`www\.[a-zA-Z0-9][a-zA-Z0-9-]*\.[^\s]+` and `(?:doi\.org/|doi:\s*)[^\s]+`
are tried in order; each has disjoint trigger literals, and the greedy
runs admit no other backtracking outcome, so the match is deterministic. -/
def matchUrlAt (t : List Char) : Option Nat :=
  if beginsWith "https://".toList t then
    let j := nonWsRun (t.drop 8)
    if j = 0 then none else some (8 + j)
  else if beginsWith "http://".toList t then
    let j := nonWsRun (t.drop 7)
    if j = 0 then none else some (7 + j)
  else if beginsWith "www.".toList t then
    match t.drop 4 with
    | [] => none
    | c :: u =>
      if isAlnumAscii c then
        let r := (u.takeWhile isAlnumDash).length
        match u.drop r with
        | '.' :: v =>
          let j := nonWsRun v
          if j = 0 then none else some (6 + r + j)
        | _ => none
      else none
  else if beginsWith "doi.org/".toList t then
    let j := nonWsRun (t.drop 8)
    if j = 0 then none else some (8 + j)
  else if beginsWith "doi:".toList t then
    let w := wsRun (t.drop 4)
    let j := nonWsRun (t.drop (4 + w))
    if j = 0 then none else some (4 + w + j)
  else none

/-- Fuel-indexed scan of `URL_PATTERN.sub("", text)`: leftmost matches are
removed, scanning resumes after each match. -/
def removeUrlsF : Nat → List Char → List Char
  | 0, s => s
  | _ + 1, [] => []
  | k + 1, c :: t =>
    match matchUrlAt (c :: t) with
    | some n => removeUrlsF k ((c :: t).drop n)
    | none => c :: removeUrlsF k t

/-- `remove_urls`: `URL_PATTERN.sub("", text)`.  (The `if not text` guard of
the source returns the input unchanged on empty input, as does the scan.) -/
def remove_urls (s : List Char) : List Char :=
  removeUrlsF s.length s

/-- Parse the "links" of a spaced-capitals chain: after an initial capital,
each link is a maximal whitespace run followed by one capital (the repeated
group `[A-Z]\s+` of `SPACED_CAPS_PATTERN`, re-associated as ws-then-capital).
`pend` accumulates (reversed) the whitespace seen since the last capital. -/
def linksA (pend : List Char) : List Char → List (List Char)
  | [] => []
  | c :: t =>
    if isPyWs c then linksA (c :: pend) t
    else if isCap c ∧ pend ≠ [] then (pend.reverse ++ [c]) :: linksA [] t
    else []

def chainLinks (t : List Char) : List (List Char) :=
  linksA [] t

/-- The match of `SPACED_CAPS_PATTERN = \b(?:[A-Z]\s+){2,}[A-Z]\b` anchored at
a capital `c` (whose word-boundary precondition the caller has checked) with
remaining text `t`.  Returns the matched span (including `c`) and the rest of
the text.  With `m` capitals in the maximal chain: if the character after the
last capital is a non-word character or the end, the greedy match consumes the
whole chain and needs `m ≥ 3`; otherwise the final `[A-Z]\b` backtracks one
capital, needing `m ≥ 4`. -/
def collapseStep (c : Char) (t : List Char) : Option (List Char × List Char) :=
  let ls := chainLinks t
  let m := ls.length + 1
  let consumed := ls.flatten
  let rest := t.drop consumed.length
  let afterOk := match rest.head? with
    | none => true
    | some x => !isWordChar x
  if afterOk then
    if 3 ≤ m then some (c :: consumed, rest) else none
  else
    if 4 ≤ m then
      let consumed2 := ls.dropLast.flatten
      some (c :: consumed2, t.drop consumed2.length)
    else none

/-- Fuel-indexed scan of `SPACED_CAPS_PATTERN.sub(lambda m: m.group(0).replace(" ", ""), text)`.
`bnd` records whether the previous character was a non-word character (or the
start of the string), i.e. whether `\b` holds before an upcoming capital.
After a match or a failed attempt at a capital the previous character is that
capital, a word character, so the flag becomes `false`. -/
def collapseF : Nat → Bool → List Char → List Char
  | 0, _, s => s
  | _ + 1, _, [] => []
  | k + 1, bnd, c :: t =>
    if bnd && isCap c then
      match collapseStep c t with
      | some (span, rest) => span.filter (fun x => x ≠ ' ') ++ collapseF k false rest
      | none => c :: collapseF k false t
    else c :: collapseF k (!isWordChar c) t

/-- `collapse_spaced_capital_sequences`: replaces every match of
`SPACED_CAPS_PATTERN` by the match with its ASCII spaces removed. -/
def collapse_spaced_capital_sequences (s : List Char) : List Char :=
  collapseF s.length true s

/-- `remove_numeric_heading_prefix` (the name in the source ends in a word the
verification toolchain reserves, hence the abbreviation): the match of
`^\s*\d+\.\s+([A-Za-z].*)$` replaced by its first group.  `.` does not match
a newline and `$` also matches just before a terminal newline, so the match
requires the remainder after the letter to contain no newline except possibly
a final one, which is then excluded from the group. -/
def removeNumericHeading (line : List Char) : List Char :=
  let t1 := line.dropWhile isPyWs
  let ds := t1.takeWhile isDigitC
  let t2 := t1.drop ds.length
  if ds = [] then line
  else match t2 with
    | '.' :: t3 =>
      let ws2 := t3.takeWhile isPyWs
      let t4 := t3.drop ws2.length
      if ws2 = [] then line
      else match t4 with
        | c :: rest =>
          if isLetterAZ c then
            let body := if rest.getLast? = some '\n' then rest.dropLast else rest
            if body.contains '\n' then line else c :: body
          else line
        | [] => line
    | _ => line

/-- `should_drop_line`'s first rule: the lowered stripped line starts with a
caption keyword. -/
def captionRule (lower : List Char) : Bool :=
  beginsWith "figure ".toList lower || beginsWith "figure:".toList lower ||
  beginsWith "fig ".toList lower || beginsWith "fig.".toList lower ||
  beginsWith "fig:".toList lower || beginsWith "table ".toList lower ||
  beginsWith "table.".toList lower || beginsWith "table:".toList lower

/-- `re.match(r"^[\-••▪◦‣♦]+\s+", stripped)`: one or more bullet glyphs
followed by whitespace. -/
def bulletRule (stripped : List Char) : Bool :=
  let bs := stripped.takeWhile isBulletC
  !bs.isEmpty && (match stripped.drop bs.length with
    | c :: _ => isPyWs c
    | [] => false)

/-- `re.match(r"^\(?[a-z]\)\s+", stripped.lower())`: an optionally
parenthesized lowercase letter label.  If the line starts with `(` the
optional group must consume it (a letter cannot match `(`). -/
def letterLabelRule (lower : List Char) : Bool :=
  match lower with
  | c0 :: c1 :: c2 :: rest =>
    if c0 = '(' then
      match rest with
      | c3 :: _ => isLowAZ c1 && (c2 == ')') && isPyWs c3
      | [] => false
    else isLowAZ c0 && (c1 == ')') && isPyWs c2
  | _ => false

/-- `re.match(r"^\d+[\.\)]\s+[a-z]", stripped)`. -/
def numberedSubItemRule (stripped : List Char) : Bool :=
  let ds := stripped.takeWhile isDigitC
  let t := stripped.drop ds.length
  !ds.isEmpty && (match t with
    | s :: t2 =>
      (s == '.' || s == ')') &&
      (let ws := t2.takeWhile isPyWs
       !ws.isEmpty && (match t2.drop ws.length with
         | c :: _ => isLowAZ c
         | [] => false))
    | [] => false)

/-- `re.match(r"^\d+[\.\)]\s*$", stripped)`: digits, a dot or parenthesis,
then only whitespace to the end. -/
def bareNumberRule (stripped : List Char) : Bool :=
  let ds := stripped.takeWhile isDigitC
  let t := stripped.drop ds.length
  !ds.isEmpty && (match t with
    | s :: t2 => (s == '.' || s == ')') && t2.all isPyWs
    | [] => false)

/-- `should_drop_line` (source lines 80–97). -/
def should_drop_line (line : List Char) : Bool :=
  if line = [] then false
  else
    let stripped := pyStrip line
    if stripped = [] then false
    else
      captionRule (pyLower stripped) || bulletRule stripped ||
      letterLabelRule (pyLower stripped) || numberedSubItemRule stripped ||
      bareNumberRule stripped

/-- The alternative `\b\d+/\d+\b` of `MATH_COMBINED` anchored at the head of
`t`; `prevWord` tells whether the preceding character is a word character
(which would violate the first `\b`). -/
def fracAtHead (prevWord : Bool) (t : List Char) : Bool :=
  if prevWord then false
  else
    let d1 := t.takeWhile isDigitC
    !d1.isEmpty && (match t.drop d1.length with
      | '/' :: v =>
        let d2 := v.takeWhile isDigitC
        !d2.isEmpty && (match v.drop d2.length with
          | [] => true
          | c :: _ => !isWordChar c)
      | _ => false)

/-- Some alternative of `MATH_COMBINED` matches at the head of `t`. -/
def mathAtHead (prevWord : Bool) (t : List Char) : Bool :=
  beginsWith "\\frac".toList t || beginsWith "\\sqrt".toList t ||
  beginsWith "\\sum".toList t || beginsWith "\\int".toList t ||
  fracAtHead prevWord t ||
  (match t with
   | a :: '^' :: d :: _ => isLetterAZ a && isDigitC d
   | _ => false) ||
  (match t with
   | a :: '_' :: b :: _ => isLetterAZ a && isAlnumAscii b
   | _ => false) ||
  (match t with
   | c :: _ => isMathSymbol c
   | [] => false)

/-- `re.search(MATH_COMBINED, snippet)`: try every position left to right. -/
def mathScan (prevWord : Bool) : List Char → Bool
  | [] => false
  | c :: t => mathAtHead prevWord (c :: t) || mathScan (isWordChar c) t

/-- `is_math_like` (source lines 191–194). -/
def is_math_like (snippet : List Char) : Bool :=
  if snippet = [] then false else mathScan false snippet

/-- The line-break characters of Python `str.splitlines()`. -/
def isLineBreakC (c : Char) : Bool :=
  c == '\n' || c == '\r' || c == '\x0b' || c == '\x0c' ||
  c == '\x1c' || c == '\x1d' || c == '\x1e' || c == '\x85' ||
  c == '\u2028' || c == '\u2029'

/-- Python `str.splitlines()`; `cur` accumulates the current line reversed. -/
def splitlinesAux (cur : List Char) : List Char → List (List Char)
  | [] => if cur = [] then [] else [cur.reverse]
  | '\r' :: '\n' :: t => cur.reverse :: splitlinesAux [] t
  | c :: t =>
    if isLineBreakC c then cur.reverse :: splitlinesAux [] t
    else splitlinesAux (c :: cur) t

def pySplitlines (s : List Char) : List (List Char) :=
  splitlinesAux [] s

/-- Python `str.split('\n')`. -/
def splitNlAux (cur : List Char) : List Char → List (List Char)
  | [] => [cur.reverse]
  | c :: t =>
    if c = '\n' then cur.reverse :: splitNlAux [] t
    else splitNlAux (c :: cur) t

def splitNl (s : List Char) : List (List Char) :=
  splitNlAux [] s

/-- Python `sep.join(parts)`. -/
def joinWith (sep : List Char) : List (List Char) → List Char
  | [] => []
  | [x] => x
  | x :: y :: rest => x ++ sep ++ joinWith sep (y :: rest)

/-- `re.search(URL_PATTERN, s)` as a Boolean. -/
def urlSearch : List Char → Bool
  | [] => false
  | c :: t => (matchUrlAt (c :: t)).isSome || urlSearch t

/-- The metadata cues checked (lowercased) while collecting title lines. -/
def metadataKeywords : List (List Char) :=
  ["received:", "accepted:", "published:", "doi:", "doi.org",
   "keywords:", "copyright", "©", "elsevier", "springer",
   "all rights reserved", "article history", "available online",
   "e-mail:", "email:", "correspondence:", "@"].map String.toList

/-- The section headers (uppercased) that trigger skipping until the abstract. -/
def sectionKeywords : List (List Char) :=
  ["ARTICLE INFO", "ARTICLE INFORMATION", "ARTICLE HISTORY", "KEYWORDS"].map
    String.toList

/-- The loop state of `clean_article_info_section`. -/
structure ArticleState where
  cleaned : List (List Char)
  title : List (List Char)
  foundAbs : Bool
  skipUntil : Bool
  collecting : Bool

/-- One iteration of the `clean_article_info_section` loop (source lines
116–162). -/
def articleStep (st : ArticleState) (line : List Char) : ArticleState :=
  let stripped := pyStrip line
  let upper := pyUpper stripped
  if containsSub "ABSTRACT".toList upper ∧ !st.foundAbs then
    { cleaned := st.cleaned ++ (if st.title ≠ [] then st.title ++ [[]] else []) ++ [line],
      title := st.title, foundAbs := true, skipUntil := false, collecting := false }
  else if !st.foundAbs ∧ sectionKeywords.any (fun k => containsSub k upper) then
    { st with skipUntil := true, collecting := false }
  else if !st.foundAbs ∧ st.skipUntil then st
  else if !st.foundAbs ∧ !st.skipUntil ∧ st.collecting then
    if stripped ≠ [] ∧
       !(metadataKeywords.any (fun k => containsSub k (pyLower stripped))) ∧
       !urlSearch stripped then
      { st with title := st.title ++ [line] }
    else st
  else if st.foundAbs then
    { st with cleaned := st.cleaned ++ [remove_urls line] }
  else st

/-- `clean_article_info_section` (source lines 100–173). -/
def clean_article_info_section (text : List Char) : List Char :=
  if text = [] then text
  else
    let lines := splitNl text
    let st := lines.foldl articleStep ⟨[], [], false, false, true⟩
    if !st.foundAbs then
      joinWith ['\n'] ((lines.map remove_urls).filter (fun l => pyStrip l ≠ []))
    else joinWith ['\n'] st.cleaned

/-! ## The per-page processing loop (source lines 197–279) -/

/-- One page's external inputs: the text extracted by the PDF engine and the
OCR transcript of the rendered raster. -/
structure PageIn where
  raw : List Char
  ocr : List Char

/-- A formula record (the dict built at source lines 269–275). -/
structure FormulaRecord where
  id : Nat
  page : Nat
  imgfile : List Char
  ocr : List Char
  lines : List (Nat × List Char)
deriving DecidableEq

/-- The mutable run state: `formula_counter`, `formula_records`,
`collected_segments`. -/
structure RunState where
  formulaCounter : Nat
  records : List FormulaRecord
  segments : List (List Char)
deriving DecidableEq

/-- Lines 205–214: the document-wide transforms of step 2, producing the
cleaned page text before per-line filtering. -/
def pageTextStep2 (raw : List Char) : List Char :=
  replaceCRLF (collapse_spaced_capital_sequences (removeChinese (fixRunsC (replaceFFC raw))))

/-- Lines 216–225: per-line filtering and repair; `none` means dropped. -/
def processLine (rawLine : List Char) : Option (List Char) :=
  let l0 := pyRstrip rawLine
  if should_drop_line l0 then none
  else
    let l1 := removeNumericHeading l0
    let l2 := collapse_spaced_capital_sequences l1
    let l3 := if l2.any isCJK then removeChinese l2 else l2
    if pyStrip l3 ≠ [] then some l3 else none

/-- Line 226: the final cleaned page text (post-line-filtering). -/
def pageTextFinal (raw : List Char) : List Char :=
  stripNewlines (joinWith ['\n'] ((pySplitlines (pageTextStep2 raw)).filterMap processLine))

/-- Line 239: `ocr_trim = remove_chinese_characters(ocr_text.strip())`. -/
def ocrTrimOf (ocr : List Char) : List Char :=
  removeChinese (pyStrip ocr)

/-- Lines 248–252: the math-like lines of a text, with 1-based line numbers. -/
def complexFormulaLines (pt : List Char) : List (Nat × List Char) :=
  ((pySplitlines pt).enum.filter
    (fun p => is_math_like p.2 && 5 < (pyStrip p.2).length)).map
    (fun p => (p.1 + 1, p.2))

/-- The path `IMG_DIR/formula_{BASE}_p{pno+1}_{fid}.png`. -/
def imgPath (imgDir base : List Char) (pno fid : Nat) : List Char :=
  imgDir ++ '/' :: ("formula_".toList ++ base ++ "_p".toList ++
    (Nat.repr (pno + 1)).toList ++ "_".toList ++ (Nat.repr fid).toList ++
    ".png".toList)

/-- Lines 204–275: processing of one page against the running state. -/
def processPage (base imgDir : List Char) (st : RunState) (pno : Nat)
    (pg : PageIn) : RunState :=
  let pt := pageTextFinal pg.raw
  let segs1 := if pt ≠ [] then st.segments ++ [pt] else st.segments
  let ocrT := ocrTrimOf pg.ocr
  let ocrHasMath := is_math_like ocrT
  let ocrDiffers := decide (50 < ocrT.length) && !containsSub ocrT pt
  let cls := complexFormulaLines pt
  if ocrHasMath || ocrDiffers || !cls.isEmpty then
    let fid := st.formulaCounter + 1
    { formulaCounter := fid,
      records := st.records ++
        [⟨fid, pno + 1, imgPath imgDir base pno fid, ocrT, cls⟩],
      segments := segs1 ++ ["<formula>".toList] }
  else { st with segments := segs1 }

/-- The whole run over the document's pages (in ascending page order). -/
def runClean (base imgDir : List Char) (pages : List PageIn) : RunState :=
  pages.enum.foldl (fun st p => processPage base imgDir st p.1 p.2) ⟨0, [], []⟩

/-- Line 279: the content written to the output file,
`"\n\n".join(segment for segment in collected_segments if segment)`. -/
def outputText (st : RunState) : List Char :=
  joinWith "\n\n".toList (st.segments.filter (fun s => s ≠ []))

/-! ## Basic lemmas about the string helpers -/

theorem beginsWith_append {p q : List Char} (r : List Char)
    (h : beginsWith p q = true) : beginsWith p (q ++ r) = true := by
  induction p generalizing q with
  | nil => rfl
  | cons a ps ih =>
    cases q with
    | nil => simp [beginsWith] at h
    | cons b qs =>
      simp only [beginsWith, Bool.and_eq_true] at h ⊢
      exact ⟨h.1, ih h.2⟩

theorem dropWhileAppend (p : Char → Bool) (u v : List Char) :
    List.dropWhile p (u ++ v) =
      if (List.dropWhile p u).isEmpty then List.dropWhile p v
      else List.dropWhile p u ++ v := by
  induction u with
  | nil => simp
  | cons a us ih =>
    by_cases h : p a
    · simpa [List.dropWhile_cons, h] using ih
    · simp [List.dropWhile_cons, h]

theorem pyRstrip_append (a b : List Char) (hb : pyRstrip b ≠ []) :
    pyRstrip (a ++ b) = a ++ pyRstrip b := by
  have hne : (List.dropWhile isPyWs b.reverse).isEmpty = false := by
    cases h : List.dropWhile isPyWs b.reverse with
    | nil => exact absurd (by simp [pyRstrip, h]) hb
    | cons x xs => rfl
  unfold pyRstrip
  rw [List.reverse_append, dropWhileAppend, hne]
  simp

theorem pyRstrip_eq_nil_iff (b : List Char) :
    pyRstrip b = [] ↔ ∀ c ∈ b, isPyWs c = true := by
  unfold pyRstrip
  simp [List.dropWhile_eq_nil_iff]

theorem pyLstrip_head {s : List Char} {c : Char}
    (h : (pyLstrip s).head? = some c) : isPyWs c = false := by
  induction s with
  | nil => simp [pyLstrip] at h
  | cons a t ih =>
    by_cases ha : isPyWs a = true
    · exact ih (by simpa [pyLstrip, List.dropWhile_cons, ha] using h)
    · rw [pyLstrip, List.dropWhile_cons, if_neg (by simp [ha])] at h
      simp only [List.head?_cons, Option.some.injEq] at h
      rw [← h]
      exact Bool.not_eq_true _ ▸ (by simpa using ha)

theorem pyRstrip_eq_rdrop (l : List Char) :
    pyRstrip l = List.rdropWhile isPyWs l := rfl

theorem pyRstrip_isPre (l : List Char) : pyRstrip l <+: l := by
  rw [pyRstrip_eq_rdrop]
  exact List.rdropWhile_prefix _ _

theorem pyRstrip_append_ws (a b : List Char) (hb : pyRstrip b = []) :
    pyRstrip (a ++ b) = pyRstrip a := by
  have hbe : (List.dropWhile isPyWs b.reverse).isEmpty = true := by
    have : (List.dropWhile isPyWs b.reverse).reverse = [] := hb
    simpa [List.isEmpty_iff] using congrArg List.reverse this
  unfold pyRstrip
  rw [List.reverse_append, dropWhileAppend, hbe]
  simp

/-! ## Step equations for the literal and regex Celsius repairs -/

theorem replaceFFC_cons3 (c d e : Char) (t : List Char) :
    replaceFFC (c :: d :: e :: t) =
      if c = fffd ∧ d = fffd ∧ e = 'C' then '°' :: 'C' :: replaceFFC t
      else c :: replaceFFC (d :: e :: t) := rfl

theorem fixRunsCA_cons (n : Nat) (c : Char) (t : List Char) :
    fixRunsCA n (c :: t) =
      if c = fffd then fixRunsCA (n + 1) t
      else if c = 'C' ∧ n ≠ 0 then '°' :: 'C' :: fixRunsCA 0 t
      else List.replicate n fffd ++ c :: fixRunsCA 0 t := rfl

theorem replaceFFC_id : ∀ s : List Char, fffd ∉ s → replaceFFC s = s
  | [], _ => rfl
  | [_], _ => rfl
  | [_, _], _ => rfl
  | c :: d :: e :: t, h => by
    have hc : ¬(c = fffd ∧ d = fffd ∧ e = 'C') := by
      rintro ⟨rfl, -, -⟩
      exact h (List.mem_cons_self _ _)
    rw [replaceFFC_cons3, if_neg hc,
      replaceFFC_id (d :: e :: t) (fun hm => h (List.mem_cons_of_mem _ hm))]

theorem fixRunsCA_zero_id : ∀ s : List Char, fffd ∉ s → fixRunsCA 0 s = s
  | [], _ => rfl
  | c :: t, h => by
    have hc : ¬ c = fffd := fun hh => h (hh ▸ List.mem_cons_self c t)
    rw [fixRunsCA_cons, if_neg hc, if_neg (by rintro ⟨-, h0⟩; exact h0 rfl)]
    rw [fixRunsCA_zero_id t (fun hm => h (List.mem_cons_of_mem _ hm))]
    rfl

theorem replaceFFC_run : ∀ n : Nat,
    replaceFFC (List.replicate (n + 3) fffd ++ ['C']) =
      List.replicate (n + 1) fffd ++ ['°', 'C']
  | 0 => by decide
  | n + 1 => by
    have h4 : List.replicate (n + 1 + 3) fffd ++ ['C'] =
        fffd :: (List.replicate (n + 3) fffd ++ ['C']) := by
      simp [List.replicate_succ, Nat.add_comm, Nat.add_assoc]
    have h3 : List.replicate (n + 3) fffd ++ ['C'] =
        fffd :: fffd :: (List.replicate (n + 1) fffd ++ ['C']) := by
      simp [List.replicate_succ, Nat.add_comm, Nat.add_assoc]
    rw [h4, h3, replaceFFC_cons3,
      if_neg (by rintro ⟨-, -, h⟩; revert h; cases n <;> simp [List.replicate_succ, fffd]),
      ← h3, replaceFFC_run n]
    simp [List.replicate_succ]

theorem fixRunsCA_rep_deg : ∀ (j k : Nat),
    fixRunsCA k (List.replicate j fffd ++ ['°', 'C']) =
      List.replicate (k + j) fffd ++ ['°', 'C']
  | 0, k => by
    rw [List.replicate_zero, List.nil_append, fixRunsCA_cons,
      if_neg (by decide), if_neg (by rintro ⟨h, -⟩; exact absurd h (by decide))]
    rfl
  | j + 1, k => by
    rw [List.replicate_succ, List.cons_append, fixRunsCA_cons, if_pos rfl,
      fixRunsCA_rep_deg j (k + 1)]
    have : k + 1 + j = k + (j + 1) := by omega
    rw [this]

/-! ## Claim C5: the Celsius repair -/

/-- C5 (counterexample): on a run of three replacement characters followed by
`C`, the code's repair (literal replacement first, then the broad regex)
leaves a stray replacement character, whereas replacing every run of one or
more replacement characters followed by `C` (the claim's summary, which is
exactly the broad regex alone, `fixRunsC`) would produce a clean `°C`. -/
theorem c5_counterexample :
    fixCelsius [fffd, fffd, fffd, 'C'] = [fffd, '°', 'C'] ∧
    fixRunsC [fffd, fffd, fffd, 'C'] = ['°', 'C'] ∧
    fixCelsius [fffd, fffd, fffd, 'C'] ≠ fixRunsC [fffd, fffd, fffd, 'C'] := by
  decide

/-- C5 (amended): the literal `"��C"` replacement runs first and the broad
`�+C` regex second, so a run of one or two replacement characters followed by
`C` becomes `°C`; a run of `n + 3` replacement characters keeps `n + 1` stray
replacement characters in front of `°C`; and a string containing no
replacement character (in particular any plain `C`) is left untouched. -/
theorem c5_amended :
    fixCelsius [fffd, 'C'] = ['°', 'C'] ∧
    fixCelsius [fffd, fffd, 'C'] = ['°', 'C'] ∧
    (∀ n : Nat, fixCelsius (List.replicate (n + 3) fffd ++ ['C']) =
      List.replicate (n + 1) fffd ++ ['°', 'C']) ∧
    (∀ s : List Char, fffd ∉ s → fixCelsius s = s) := by
  refine ⟨by decide, by decide, fun n => ?_, fun s hs => ?_⟩
  · rw [fixCelsius, replaceFFC_run n, fixRunsC, fixRunsCA_rep_deg]
    simp
  · rw [fixCelsius, replaceFFC_id s hs, fixRunsC, fixRunsCA_zero_id s hs]

/-- Witness for the hypothesis of `c5_amended`: a concrete mojibake-free
string passes through the repair unchanged. -/
theorem c5_witness :
    fffd ∉ "20 C warm".toList ∧ fixCelsius "20 C warm".toList = "20 C warm".toList :=
  ⟨by decide, c5_amended.2.2.2 _ (by decide)⟩

/-! ## Claim C6: the caption rule of the line-drop classifier -/

theorem should_drop_of_caption {s : List Char}
    (h : captionRule (pyLower (pyStrip s)) = true) : should_drop_line s = true := by
  have hs : pyStrip s ≠ [] := by
    intro hh
    rw [hh] at h
    exact absurd h (by decide)
  have hline : s ≠ [] := by
    intro hh
    rw [hh] at hs
    exact hs rfl
  rw [should_drop_line, if_neg hline, if_neg hs]
  simp [h]

/-- C6 (counterexample): the line `"Figure."` is NOT dropped: none of the
eight caption literals is a prefix of `"figure."` (in particular `"fig."` is
not, since the fourth character is `u`), and no other rule applies. -/
theorem c6_counterexample : should_drop_line "Figure.".toList = false := by decide

/-- C6 (amended): any line whose lowercased stripped form starts with one of
the eight caption literals is dropped; in particular every line starting with
`"Figure 1: "` is dropped, and `"Figures are great"` is not dropped; but a
line consisting solely of `"Figure."` is NOT dropped. -/
theorem c6_amended :
    (∀ s : List Char, captionRule (pyLower (pyStrip s)) = true →
      should_drop_line s = true) ∧
    (∀ rest : List Char, should_drop_line ("Figure 1: ".toList ++ rest) = true) ∧
    should_drop_line "Figure.".toList = false ∧
    should_drop_line "Figures are great".toList = false := by
  refine ⟨fun s h => should_drop_of_caption h, fun rest => ?_, by decide, by decide⟩
  apply should_drop_of_caption
  have hsplit : "Figure 1: ".toList ++ rest = "Figure 1:".toList ++ (' ' :: rest) := rfl
  have h1 : pyLstrip ("Figure 1: ".toList ++ rest) = "Figure 1: ".toList ++ rest := by
    show List.dropWhile _ ('F' :: ("igure 1: ".toList ++ rest)) = _
    rw [List.dropWhile_cons, if_neg (by decide)]
    rfl
  rw [pyStrip, h1, hsplit]
  by_cases hb : pyRstrip (' ' :: rest) = []
  · rw [pyRstrip_append_ws _ _ hb]
    decide
  · rw [pyRstrip_append _ _ hb]
    have hbw : beginsWith "figure ".toList
        (pyLower ("Figure 1:".toList ++ pyRstrip (' ' :: rest))) = true := by
      rw [pyLower, List.map_append]
      exact beginsWith_append _ (by decide)
    unfold captionRule
    rw [hbw]
    simp

/-- Witness for the hypothesis of `c6_amended`: a concrete caption line. -/
theorem c6_witness :
    captionRule (pyLower (pyStrip "table 3: results".toList)) = true ∧
    should_drop_line "table 3: results".toList = true :=
  ⟨by decide, c6_amended.1 _ (by decide)⟩

/-! ## Claim C7: the OCR transcript normalization -/

/-- C7 (counterexample): the code strips whitespace BEFORE removing CJK
script (line 239), so removing a CJK character can expose interior whitespace
at an end: the OCR result `"中 A"` yields the transcript `" A"`, which has
leading whitespace. -/
theorem c7_counterexample :
    ocrTrimOf ['中', ' ', 'A'] = [' ', 'A'] ∧ isPyWs ' ' = true := by decide

/-- C7 (amended): the transcript is script-stripping applied to the
whitespace-trimmed OCR result; whenever the OCR result contains no CJK
character, the stripping is the identity and the transcript has no leading or
trailing whitespace. -/
theorem c7_amended (s : List Char) (h : ∀ c ∈ s, isCJK c = false) :
    ocrTrimOf s = pyStrip s ∧
    (∀ c : Char, (pyStrip s).head? = some c → isPyWs c = false) ∧
    (∀ c : Char, (pyStrip s).getLast? = some c → isPyWs c = false) := by
  have hsub : ∀ a ∈ pyStrip s, a ∈ s := by
    intro a ha
    have h1 : a ∈ pyLstrip s :=
      (pyRstrip_isPre (pyLstrip s)).sublist.subset ha
    exact (List.dropWhile_sublist _).subset h1
  refine ⟨?_, ?_, ?_⟩
  · rw [ocrTrimOf, removeChinese]
    exact List.filter_eq_self.mpr (fun a ha => by simp [h a (hsub a ha)])
  · intro c hc
    obtain ⟨t, ht⟩ := pyRstrip_isPre (pyLstrip s)
    cases hx : pyStrip s with
    | nil => rw [hx] at hc; simp at hc
    | cons d x' =>
      rw [hx] at hc
      simp only [List.head?_cons, Option.some.injEq] at hc
      have hx' : pyRstrip (pyLstrip s) = d :: x' := hx
      apply pyLstrip_head (s := s) (c := c)
      rw [hx'] at ht
      rw [← ht, ← hc]
      rfl
  · intro c hc
    have hne : pyStrip s ≠ [] := by
      intro hh
      rw [hh] at hc
      simp at hc
    have hne' : List.rdropWhile isPyWs (pyLstrip s) ≠ [] := by
      rw [← pyRstrip_eq_rdrop]
      exact hne
    have hlast := List.rdropWhile_last_not isPyWs (pyLstrip s) hne'
    have : (List.rdropWhile isPyWs (pyLstrip s)).getLast hne' = c := by
      have hg := List.getLast?_eq_getLast _ hne'
      have hc' : (List.rdropWhile isPyWs (pyLstrip s)).getLast? = some c := hc
      rw [hg] at hc'
      exact (Option.some.injEq _ _).mp hc'
    rw [this] at hlast
    simpa using hlast

/-- Witness for the hypothesis of `c7_amended`: a CJK-free OCR result. -/
theorem c7_witness :
    (∀ c ∈ "  ok  ".toList, isCJK c = false) ∧
    ocrTrimOf "  ok  ".toList = pyStrip "  ok  ".toList :=
  ⟨by decide, (c7_amended _ (by decide)).1⟩

/-! ## Claim C10: the letter-label rule of the line-drop classifier -/

/-- C10: the rule `^\(?[a-z]\)\s+` is applied to the lowercased stripped
line, so uppercase labels such as `"(A) "` and `"A) "` (followed by
whitespace and some non-whitespace content) are dropped too, while a bare
letter without the closing parenthesis (`"a word"`) is not dropped. -/
theorem c10_letter_label :
    (∀ rest : List Char, (∃ c ∈ rest, isPyWs c = false) →
      should_drop_line ('(' :: 'A' :: ')' :: ' ' :: rest) = true) ∧
    (∀ rest : List Char, (∃ c ∈ rest, isPyWs c = false) →
      should_drop_line ('A' :: ')' :: ' ' :: rest) = true) ∧
    should_drop_line "a word".toList = false := by
  have hrne : ∀ rest : List Char, (∃ c ∈ rest, isPyWs c = false) →
      pyRstrip rest ≠ [] := by
    rintro rest ⟨c, hc, hw⟩ hall
    rw [pyRstrip_eq_nil_iff] at hall
    rw [hall c hc] at hw
    cases hw
  refine ⟨fun rest hex => ?_, fun rest hex => ?_, by decide⟩
  · have hstrip : pyStrip ('(' :: 'A' :: ')' :: ' ' :: rest) =
        '(' :: 'A' :: ')' :: ' ' :: pyRstrip rest := by
      rw [pyStrip]
      have hl : pyLstrip ('(' :: 'A' :: ')' :: ' ' :: rest) =
          '(' :: 'A' :: ')' :: ' ' :: rest := by
        rw [pyLstrip, List.dropWhile_cons, if_neg (by decide)]
      rw [hl, show '(' :: 'A' :: ')' :: ' ' :: rest = ['(', 'A', ')', ' '] ++ rest from rfl,
        pyRstrip_append _ _ (hrne rest hex)]
      rfl
    rw [should_drop_line, if_neg (by simp), if_neg (by rw [hstrip]; simp)]
    have hll : letterLabelRule (pyLower (pyStrip ('(' :: 'A' :: ')' :: ' ' :: rest))) = true := by
      rw [hstrip]
      rfl
    simp [hll]
  · have hstrip : pyStrip ('A' :: ')' :: ' ' :: rest) =
        'A' :: ')' :: ' ' :: pyRstrip rest := by
      rw [pyStrip]
      have hl : pyLstrip ('A' :: ')' :: ' ' :: rest) = 'A' :: ')' :: ' ' :: rest := by
        rw [pyLstrip, List.dropWhile_cons, if_neg (by decide)]
      rw [hl, show 'A' :: ')' :: ' ' :: rest = ['A', ')', ' '] ++ rest from rfl,
        pyRstrip_append _ _ (hrne rest hex)]
      rfl
    rw [should_drop_line, if_neg (by simp), if_neg (by rw [hstrip]; simp)]
    have hll : letterLabelRule (pyLower (pyStrip ('A' :: ')' :: ' ' :: rest))) = true := by
      rw [hstrip]
      rfl
    simp [hll]

/-- Witness for the hypotheses of `c10_letter_label`: the uppercase label
line `"(A) hi"`. -/
theorem c10_witness :
    (∃ c ∈ "hi".toList, isPyWs c = false) ∧
    should_drop_line "(A) hi".toList = true :=
  ⟨⟨'h', by decide, by decide⟩, c10_letter_label.1 "hi".toList ⟨'h', by decide, by decide⟩⟩

/-! ## Characterization of the per-page loop -/

/-- Signal (b) over the post-line-filtering cleaned page text: the transcript
is longer than 50 characters and is not a substring of that text. -/
def ocrDiffersSig (pg : PageIn) : Bool :=
  decide (50 < (ocrTrimOf pg.ocr).length) &&
    !containsSub (ocrTrimOf pg.ocr) (pageTextFinal pg.raw)

/-- A page is flagged as formula-bearing when signal (a), (b) or a non-empty
(c) holds — (b) and (c) being computed over the post-line-filtering cleaned
page text. -/
def pageFlagged (pg : PageIn) : Bool :=
  is_math_like (ocrTrimOf pg.ocr) || ocrDiffersSig pg ||
    !(complexFormulaLines (pageTextFinal pg.raw)).isEmpty

/-- The formula record a flagged page contributes. -/
def pageRecordOf (base imgDir : List Char) (pno fid : Nat) (pg : PageIn) :
    FormulaRecord :=
  ⟨fid, pno + 1, imgPath imgDir base pno fid, ocrTrimOf pg.ocr,
    complexFormulaLines (pageTextFinal pg.raw)⟩

/-- The group of segments a page contributes: its cleaned text if non-empty,
then the `"<formula>"` placeholder if the page is flagged. -/
def pageSegsOf (pg : PageIn) : List (List Char) :=
  (if pageTextFinal pg.raw ≠ [] then [pageTextFinal pg.raw] else []) ++
  (if pageFlagged pg then ["<formula>".toList] else [])

theorem processPage_eq (base imgDir : List Char) (st : RunState) (pno : Nat)
    (pg : PageIn) :
    processPage base imgDir st pno pg =
      { formulaCounter := st.formulaCounter + (if pageFlagged pg then 1 else 0),
        records := st.records ++
          (if pageFlagged pg then
            [pageRecordOf base imgDir pno (st.formulaCounter + 1) pg] else []),
        segments := st.segments ++ pageSegsOf pg } := by
  rw [processPage, pageSegsOf, pageFlagged, ocrDiffersSig, pageRecordOf]
  by_cases hf : (is_math_like (ocrTrimOf pg.ocr) ||
      (decide (50 < (ocrTrimOf pg.ocr).length) &&
        !containsSub (ocrTrimOf pg.ocr) (pageTextFinal pg.raw)) ||
      !(complexFormulaLines (pageTextFinal pg.raw)).isEmpty) = true
  · simp only [hf, if_pos]
    by_cases hp : pageTextFinal pg.raw ≠ [] <;> simp [hp]
  · simp only [Bool.not_eq_true] at hf
    simp only [hf]
    by_cases hp : pageTextFinal pg.raw ≠ [] <;> simp [hp]

/-- The run from a given state and page index; `runClean` is the instance at
the initial state and index 0. -/
def runFrom (base imgDir : List Char) (st : RunState) (k : Nat) :
    List PageIn → RunState
  | [] => st
  | pg :: rest => runFrom base imgDir (processPage base imgDir st k pg) (k + 1) rest

theorem runFrom_eq_foldl (base imgDir : List Char) :
    ∀ (pages : List PageIn) (st : RunState) (k : Nat),
      (pages.enumFrom k).foldl
        (fun s p => processPage base imgDir s p.1 p.2) st =
        runFrom base imgDir st k pages
  | [], _, _ => rfl
  | pg :: rest, st, k => by
    rw [List.enumFrom_cons, List.foldl_cons, runFrom,
      runFrom_eq_foldl base imgDir rest (processPage base imgDir st k pg) (k + 1)]

theorem runClean_eq_runFrom (base imgDir : List Char) (pages : List PageIn) :
    runClean base imgDir pages = runFrom base imgDir ⟨0, [], []⟩ 0 pages := by
  rw [runClean, ← runFrom_eq_foldl]
  rfl

/-- The records contributed by the remaining pages, given the current counter
value and page index. -/
def buildRecs (base imgDir : List Char) : Nat → Nat → List PageIn →
    List FormulaRecord
  | _, _, [] => []
  | cnt, k, pg :: rest =>
    if pageFlagged pg then
      pageRecordOf base imgDir k (cnt + 1) pg :: buildRecs base imgDir (cnt + 1) (k + 1) rest
    else buildRecs base imgDir cnt (k + 1) rest

theorem runFrom_char (base imgDir : List Char) :
    ∀ (pages : List PageIn) (st : RunState) (k : Nat),
      (runFrom base imgDir st k pages).segments =
        st.segments ++ pages.flatMap pageSegsOf ∧
      (runFrom base imgDir st k pages).records =
        st.records ++ buildRecs base imgDir st.formulaCounter k pages ∧
      (runFrom base imgDir st k pages).formulaCounter =
        st.formulaCounter + (pages.filter pageFlagged).length
  | [], st, k => by simp [runFrom, buildRecs]
  | pg :: rest, st, k => by
    obtain ⟨ih1, ih2, ih3⟩ :=
      runFrom_char base imgDir rest (processPage base imgDir st k pg) (k + 1)
    rw [runFrom]
    by_cases hf : pageFlagged pg = true
    · refine ⟨?_, ?_, ?_⟩
      · rw [ih1, processPage_eq]
        simp [List.flatMap_cons, List.append_assoc]
      · rw [ih2, processPage_eq]
        simp only [hf, if_pos, buildRecs, List.append_assoc]
        simp
      · rw [ih3, processPage_eq]
        simp [hf, List.filter_cons]
        omega
    · simp only [Bool.not_eq_true] at hf
      refine ⟨?_, ?_, ?_⟩
      · rw [ih1, processPage_eq]
        simp [List.flatMap_cons, List.append_assoc]
      · rw [ih2, processPage_eq]
        simp [hf, buildRecs]
      · rw [ih3, processPage_eq]
        simp [hf, List.filter_cons]

theorem buildRecs_map_id (base imgDir : List Char) :
    ∀ (pages : List PageIn) (cnt k : Nat),
      (buildRecs base imgDir cnt k pages).map (fun r => r.id) =
        List.range' (cnt + 1) (buildRecs base imgDir cnt k pages).length
  | [], _, _ => rfl
  | pg :: rest, cnt, k => by
    by_cases hf : pageFlagged pg = true
    · rw [buildRecs, if_pos hf]
      simp only [List.map_cons, List.length_cons, List.range'_succ]
      rw [buildRecs_map_id base imgDir rest (cnt + 1) (k + 1)]
      rfl
    · rw [buildRecs, if_neg (by simp [hf])]
      exact buildRecs_map_id base imgDir rest cnt (k + 1)

theorem buildRecs_length (base imgDir : List Char) :
    ∀ (pages : List PageIn) (cnt k : Nat),
      (buildRecs base imgDir cnt k pages).length =
        (pages.filter pageFlagged).length
  | [], _, _ => rfl
  | pg :: rest, cnt, k => by
    by_cases hf : pageFlagged pg = true
    · rw [buildRecs, if_pos hf, List.filter_cons, if_pos hf]
      simp [buildRecs_length base imgDir rest (cnt + 1) (k + 1)]
    · rw [buildRecs, if_neg (by simp [hf]), List.filter_cons,
        if_neg (by simp [hf])]
      exact buildRecs_length base imgDir rest cnt (k + 1)

theorem buildRecs_map_page (base imgDir : List Char) :
    ∀ (pages : List PageIn) (cnt k : Nat),
      (buildRecs base imgDir cnt k pages).map (fun r => r.page) =
        ((pages.enumFrom k).filter (fun p => pageFlagged p.2)).map
          (fun p => p.1 + 1)
  | [], _, _ => rfl
  | pg :: rest, cnt, k => by
    by_cases hf : pageFlagged pg = true
    · rw [buildRecs, if_pos hf, List.enumFrom_cons, List.filter_cons, if_pos hf]
      simp only [List.map_cons]
      rw [buildRecs_map_page base imgDir rest (cnt + 1) (k + 1)]
      rfl
    · rw [buildRecs, if_neg (by simp [hf]), List.enumFrom_cons,
        List.filter_cons, if_neg (by simp [hf])]
      exact buildRecs_map_page base imgDir rest cnt (k + 1)

theorem buildRecs_mem (base imgDir : List Char) :
    ∀ (pages : List PageIn) (cnt k : Nat) (r : FormulaRecord),
      r ∈ buildRecs base imgDir cnt k pages →
      ∃ pg ∈ pages, pageFlagged pg = true ∧ r.ocr = ocrTrimOf pg.ocr ∧
        r.lines = complexFormulaLines (pageTextFinal pg.raw)
  | [], _, _, r, hr => by simp [buildRecs] at hr
  | pg :: rest, cnt, k, r, hr => by
    by_cases hf : pageFlagged pg = true
    · rw [buildRecs, if_pos hf] at hr
      rcases List.mem_cons.mp hr with h | h
      · exact ⟨pg, List.mem_cons_self _ _, hf, by rw [h]; rfl, by rw [h]; rfl⟩
      · obtain ⟨pg', hpg', hrest⟩ := buildRecs_mem base imgDir rest (cnt + 1) (k + 1) r h
        exact ⟨pg', List.mem_cons_of_mem _ hpg', hrest⟩
    · rw [buildRecs, if_neg (by simp [hf])] at hr
      obtain ⟨pg', hpg', hrest⟩ := buildRecs_mem base imgDir rest cnt (k + 1) r hr
      exact ⟨pg', List.mem_cons_of_mem _ hpg', hrest⟩

/-- The output format as the spec states it, defined independently of the
code's `str.join`: the non-empty segments joined by a double newline, with no
trailing separator. -/
def dnJoin : List (List Char) → List Char
  | [] => []
  | s :: rest =>
    if s = [] then dnJoin rest
    else if dnJoin rest = [] then s
    else s ++ '\n' :: '\n' :: dnJoin rest

theorem dnJoin_eq_nil_iff : ∀ l : List (List Char),
    dnJoin l = [] ↔ l.filter (fun x => x ≠ []) = []
  | [] => by simp [dnJoin]
  | s :: rest => by
    by_cases hs : s = []
    · rw [dnJoin, if_pos hs, List.filter_cons, if_neg (by simp [hs])]
      exact dnJoin_eq_nil_iff rest
    · have hfc : List.filter (fun x => decide (x ≠ [])) (s :: rest) =
          s :: List.filter (fun x => decide (x ≠ [])) rest := by
        rw [List.filter_cons, if_pos (by simp [hs])]
      rw [dnJoin, if_neg hs, hfc]
      by_cases hr : dnJoin rest = []
      · rw [if_pos hr]
        simp [hs]
      · rw [if_neg hr]
        simp [hs]

theorem joinWith_filter_eq_dnJoin : ∀ l : List (List Char),
    joinWith "\n\n".toList (l.filter (fun s => s ≠ [])) = dnJoin l
  | [] => rfl
  | s :: rest => by
    by_cases hs : s = []
    · rw [List.filter_cons, if_neg (by simp [hs]), dnJoin, if_pos hs]
      exact joinWith_filter_eq_dnJoin rest
    · rw [List.filter_cons, if_pos (by simp [hs]), dnJoin, if_neg hs]
      by_cases hr : dnJoin rest = []
      · have hfr : rest.filter (fun x => x ≠ []) = [] :=
          (dnJoin_eq_nil_iff rest).mp hr
        rw [hfr, hr]
        rfl
      · have hfr : rest.filter (fun x => x ≠ []) ≠ [] := by
          intro hh
          exact hr ((dnJoin_eq_nil_iff rest).mpr hh)
        cases hfl : rest.filter (fun x => x ≠ []) with
        | nil => exact absurd hfl hfr
        | cons y ys =>
          rw [if_neg hr, joinWith, ← hfl, joinWith_filter_eq_dnJoin rest,
            show "\n\n".toList = ['\n', '\n'] from by decide]
          simp

/-! ## Claim C1: which text the formula signals are computed over -/

/-- Signal (c) as claim C1 reads it: the math-like lines collected from the
PRE-line-filtering cleaned page text of step 2 (spec-side definition, to be
compared with what the code computes). -/
def claimStep2FormulaLines (raw : List Char) : List (Nat × List Char) :=
  complexFormulaLines (pageTextStep2 raw)

/-- C1 (counterexample): for the page text `"figure 1/22 x"` the claim's
signal (c) over the pre-line-filtering step-2 text is non-empty (the line is
math-like and longer than 5 when stripped), so per the claim the page would
be flagged and a record created; but the code computes the signals over the
post-line-filtering text (`page_text` is reassigned at line 226), which is
empty here because the caption rule drops the only line, so the run creates
no record at all. -/
theorem c1_counterexample :
    claimStep2FormulaLines "figure 1/22 x".toList =
      [(1, "figure 1/22 x".toList)] ∧
    complexFormulaLines (pageTextFinal "figure 1/22 x".toList) = [] ∧
    runClean "doc".toList "imgs".toList [⟨"figure 1/22 x".toList, []⟩] =
      ⟨0, [], []⟩ := by
  decide

/-- C1 (amended): the formula signals of step 7 are computed over the
POST-line-filtering cleaned page text (line 226): a page is flagged exactly
when OCR math-likeness, the length-and-not-substring test against that text,
or a non-empty list of math-like lines of that text holds; and every record
of a run stores the OCR transcript and the math-like lines of that
post-filtering text of some flagged input page. -/
theorem c1_amended :
    (∀ (base imgDir : List Char) (st : RunState) (pno : Nat) (pg : PageIn),
      processPage base imgDir st pno pg =
        { formulaCounter := st.formulaCounter + (if pageFlagged pg then 1 else 0),
          records := st.records ++ (if pageFlagged pg then
            [pageRecordOf base imgDir pno (st.formulaCounter + 1) pg] else []),
          segments := st.segments ++ pageSegsOf pg }) ∧
    (∀ (base imgDir : List Char) (pages : List PageIn),
      ∀ r ∈ (runClean base imgDir pages).records,
        ∃ pg ∈ pages, pageFlagged pg = true ∧ r.ocr = ocrTrimOf pg.ocr ∧
          r.lines = complexFormulaLines (pageTextFinal pg.raw)) := by
  refine ⟨processPage_eq, fun base imgDir pages r hr => ?_⟩
  rw [runClean_eq_runFrom] at hr
  have hrec := (runFrom_char base imgDir pages ⟨0, [], []⟩ 0).2.1
  rw [hrec] at hr
  simp only [List.nil_append] at hr
  exact buildRecs_mem base imgDir pages 0 0 r hr

/-- Witness for the hypothesis of `c1_amended`: the record of a concrete
one-page run with an inline formula. -/
theorem c1_witness :
    ∃ pg ∈ [(⟨"x_1 + x_2 = 10".toList, []⟩ : PageIn)],
      pageFlagged pg = true ∧
      (⟨1, 1, "imgs/formula_doc_p1_1.png".toList, [],
        [(1, "x_1 + x_2 = 10".toList)]⟩ : FormulaRecord).ocr = ocrTrimOf pg.ocr ∧
      (⟨1, 1, "imgs/formula_doc_p1_1.png".toList, [],
        [(1, "x_1 + x_2 = 10".toList)]⟩ : FormulaRecord).lines =
        complexFormulaLines (pageTextFinal pg.raw) :=
  c1_amended.2 "doc".toList "imgs".toList _ _ (by decide)

/-! ## Claim C2: the output file content -/

/-- C2: the content written at line 279 is exactly the double-newline join of
the non-empty collected segments, with no trailing separator (the spec-side
`dnJoin`), for every run. -/
theorem c2_output_join (base imgDir : List Char) (pages : List PageIn) :
    outputText (runClean base imgDir pages) =
      dnJoin (runClean base imgDir pages).segments := by
  rw [outputText]
  exact joinWith_filter_eq_dnJoin _

/-! ## Claim C3: segment ordering and append-only growth -/

/-- C3: the collected segments of a run are exactly the concatenation, in
ascending page order, of each page's group — its cleaned text (when
non-empty) immediately followed by the `"<formula>"` placeholder (when the
page is flagged) — and processing a page only appends to the existing
segments, so earlier segments are never mutated or interleaved. -/
theorem c3_segment_order (base imgDir : List Char) (pages : List PageIn) :
    (runClean base imgDir pages).segments = pages.flatMap pageSegsOf ∧
    (∀ (st : RunState) (pno : Nat) (pg : PageIn),
      (processPage base imgDir st pno pg).segments =
        st.segments ++ pageSegsOf pg) := by
  constructor
  · rw [runClean_eq_runFrom]
    have := (runFrom_char base imgDir pages ⟨0, [], []⟩ 0).1
    simpa using this
  · intro st pno pg
    rw [processPage_eq]

/-! ## Claim C4: formula record ids are 1-based, dense, one per flagged page -/

/-- C4: across a whole run the record ids are exactly `1, 2, …, n` in order
(1-based, strictly increasing, dense), the final counter equals the number of
records, and the records correspond one-to-one, in order, to the flagged
pages (their `page` fields are the 1-based indices of the flagged pages). -/
theorem c4_record_ids (base imgDir : List Char) (pages : List PageIn) :
    (runClean base imgDir pages).records.map (fun r => r.id) =
      List.range' 1 (runClean base imgDir pages).records.length ∧
    (runClean base imgDir pages).formulaCounter =
      (runClean base imgDir pages).records.length ∧
    (runClean base imgDir pages).records.map (fun r => r.page) =
      (pages.enum.filter (fun p => pageFlagged p.2)).map (fun p => p.1 + 1) := by
  rw [runClean_eq_runFrom]
  obtain ⟨-, h2, h3⟩ := runFrom_char base imgDir pages ⟨0, [], []⟩ 0
  rw [h2, h3]
  simp only [List.nil_append]
  refine ⟨?_, ?_, ?_⟩
  · have := buildRecs_map_id base imgDir pages 0 0
    simpa using this
  · simp [buildRecs_length base imgDir pages 0 0]
  · have := buildRecs_map_page base imgDir pages 0 0
    simpa [List.enum] using this

/-! ## Claim C8: the no-abstract fallback of the metadata remover -/

theorem beginsWith_iff : ∀ p s : List Char, beginsWith p s = true ↔ p <+: s
  | [], s => by simp [beginsWith]
  | p :: ps, [] => by
    simp only [beginsWith, Bool.false_eq_true, false_iff]
    intro h
    exact absurd (List.eq_nil_of_prefix_nil h) (by simp)
  | p :: ps, c :: cs => by
    rw [beginsWith, Bool.and_eq_true, beginsWith_iff ps cs, List.cons_prefix_cons,
      beq_iff_eq]

theorem containsSub_isInfix : ∀ pat s : List Char,
    containsSub pat s = true ↔ pat <:+: s
  | pat, [] => by
    rw [containsSub, beginsWith_iff, List.infix_nil, List.prefix_nil]
  | pat, c :: cs => by
    rw [containsSub, Bool.or_eq_true, beginsWith_iff, containsSub_isInfix pat cs,
      List.infix_cons_iff]

theorem pyStrip_isInfix (l : List Char) : pyStrip l <:+: l :=
  (pyRstrip_isPre (pyLstrip l)).isInfix.trans (List.dropWhile_suffix _).isInfix

theorem containsSub_strip_upper {l : List Char}
    (h : containsSub "ABSTRACT".toList (pyUpper l) = false) :
    containsSub "ABSTRACT".toList (pyUpper (pyStrip l)) = false := by
  cases hx : containsSub "ABSTRACT".toList (pyUpper (pyStrip l)) with
  | false => rfl
  | true =>
    exfalso
    have hinf : "ABSTRACT".toList <:+: pyUpper (pyStrip l) :=
      (containsSub_isInfix _ _).mp hx
    obtain ⟨u, v, huv⟩ := pyStrip_isInfix l
    have hmap : pyUpper (pyStrip l) <:+: pyUpper l := by
      refine ⟨pyUpper u, pyUpper v, ?_⟩
      have hcongr := congrArg pyUpper huv
      simpa [pyUpper, List.map_append] using hcongr
    have := (containsSub_isInfix _ _).mpr (hinf.trans hmap)
    rw [this] at h
    cases h

theorem articleFold_not_found : ∀ (lines : List (List Char)) (st : ArticleState),
    st.foundAbs = false →
    (∀ l ∈ lines, containsSub "ABSTRACT".toList (pyUpper (pyStrip l)) = false) →
    (lines.foldl articleStep st).foundAbs = false
  | [], st, hst, _ => hst
  | l :: rest, st, hst, hall => by
    rw [List.foldl_cons]
    refine articleFold_not_found rest _ ?_
      (fun x hx => hall x (List.mem_cons_of_mem _ hx))
    have habs := hall l (List.mem_cons_self _ _)
    rw [articleStep, if_neg (by rw [habs]; simp)]
    split
    · exact hst
    · split
      · exact hst
      · split
        · split
          · exact hst
          · exact hst
        · split
          · exact hst
          · exact hst

/-- C8: when no line of the input contains `"abstract"` case-insensitively,
`clean_article_info_section` returns the original lines with URLs stripped
and then-blank lines dropped, joined by newlines — no title or metadata
filtering is applied in this fallback path. -/
theorem c8_fallback (text : List Char)
    (h : ∀ l ∈ splitNl text, containsSub "ABSTRACT".toList (pyUpper l) = false) :
    clean_article_info_section text =
      joinWith ['\n'] (((splitNl text).map remove_urls).filter
        (fun l => pyStrip l ≠ [])) := by
  by_cases htxt : text = []
  · subst htxt
    decide
  · rw [clean_article_info_section, if_neg htxt]
    have hfold : ((splitNl text).foldl articleStep ⟨[], [], false, false, true⟩).foundAbs
        = false :=
      articleFold_not_found _ _ rfl (fun l hl => containsSub_strip_upper (h l hl))
    simp only [hfold]
    rfl

/-- Witness for the hypothesis of `c8_fallback`: a concrete two-line text
with a URL and a blank line and no abstract marker. -/
theorem c8_witness :
    (∀ l ∈ splitNl "Title doi.org/x y\n\nBody".toList,
      containsSub "ABSTRACT".toList (pyUpper l) = false) ∧
    clean_article_info_section "Title doi.org/x y\n\nBody".toList =
      joinWith ['\n'] (((splitNl "Title doi.org/x y\n\nBody".toList).map
        remove_urls).filter (fun l => pyStrip l ≠ [])) :=
  ⟨by decide, c8_fallback _ (by decide)⟩

/-! ## Toward claim C9: idempotence of the repair functions

### Script removal and numeric-heading removal -/

theorem removeChinese_idem (s : List Char) :
    removeChinese (removeChinese s) = removeChinese s := by
  simp [removeChinese, List.filter_filter]

theorem isLetterAZ_not_ws {c : Char} (h : isLetterAZ c = true) :
    isPyWs c = false := by
  cases hw : isPyWs c with
  | false => rfl
  | true =>
    exfalso
    rw [isLetterAZ, Bool.or_eq_true, isCap, isLowAZ] at h
    simp only [Bool.and_eq_true, decide_eq_true_eq] at h
    rw [isPyWs] at hw
    simp only [Bool.or_eq_true, beq_iff_eq] at hw
    rcases hw with ((((rfl | rfl) | rfl) | rfl) | rfl) | rfl <;>
      exact absurd h (by decide)

theorem isLetterAZ_not_digit {c : Char} (h : isLetterAZ c = true) :
    isDigitC c = false := by
  cases hd : isDigitC c with
  | false => rfl
  | true =>
    exfalso
    rw [isLetterAZ, Bool.or_eq_true, isCap, isLowAZ] at h
    rw [isDigitC, Bool.and_eq_true] at hd
    simp only [Bool.and_eq_true, decide_eq_true_eq] at h hd
    omega

theorem removeNumericHeading_letter {c : Char} (body : List Char)
    (h : isLetterAZ c = true) : removeNumericHeading (c :: body) = c :: body := by
  rw [removeNumericHeading]
  simp [List.dropWhile_cons, List.takeWhile_cons, isLetterAZ_not_ws h,
    isLetterAZ_not_digit h]

theorem removeNumericHeading_cases (line : List Char) :
    removeNumericHeading line = line ∨
    ∃ c body, removeNumericHeading line = c :: body ∧ isLetterAZ c = true := by
  unfold removeNumericHeading
  dsimp only
  repeat' split
  all_goals first
    | exact Or.inl rfl
    | exact Or.inr ⟨_, _, rfl, by assumption⟩

theorem removeNumericHeading_idem (line : List Char) :
    removeNumericHeading (removeNumericHeading line) =
      removeNumericHeading line := by
  rcases removeNumericHeading_cases line with h | ⟨c, body, heq, hc⟩
  · rw [h]
    exact h
  · rw [heq, removeNumericHeading_letter body hc]

/-! ### The Celsius repair: its output never has a replacement character
immediately followed by `C`, and both replacement passes are the identity on
such strings. -/

/-- No replacement character is immediately followed by `C`. -/
def noFC : List Char → Prop
  | [] => True
  | [_] => True
  | a :: b :: t => ¬(a = fffd ∧ b = 'C') ∧ noFC (b :: t)

theorem noFC_tail : ∀ {c : Char} {t : List Char}, noFC (c :: t) → noFC t
  | _, [], _ => trivial
  | _, _ :: _, h => h.2

theorem noFC_cons {a : Char} {t : List Char} (ha : a ≠ fffd) (ht : noFC t) :
    noFC (a :: t) := by
  cases t with
  | nil => trivial
  | cons b t' => exact ⟨fun hab => ha hab.1, ht⟩

theorem noFC_replicate : ∀ n, noFC (List.replicate n fffd)
  | 0 => trivial
  | 1 => trivial
  | n + 2 =>
    ⟨fun hp => absurd hp.2 (by decide), noFC_replicate (n + 1)⟩

theorem noFC_repl_cons : ∀ (n : Nat) (c : Char) (t : List Char),
    noFC (c :: t) → (c ≠ 'C' ∨ n = 0) →
    noFC (List.replicate n fffd ++ c :: t)
  | 0, _, _, h, _ => h
  | n + 1, c, t, h, hc => by
    have hcc : c ≠ 'C' := hc.resolve_right (by omega)
    have hrec := noFC_repl_cons n c t h (Or.inl hcc)
    rw [List.replicate_succ, List.cons_append]
    cases n with
    | zero => exact ⟨fun hp => hcc hp.2, h⟩
    | succ m =>
      rw [List.replicate_succ, List.cons_append]
      refine ⟨fun hp => absurd hp.2 (by decide), ?_⟩
      rw [← List.cons_append, ← List.replicate_succ]
      exact hrec

theorem noFC_fixRunsCA : ∀ (s : List Char) (n : Nat), noFC (fixRunsCA n s)
  | [], n => by
    rw [fixRunsCA]
    exact noFC_replicate n
  | c :: t, n => by
    rw [fixRunsCA_cons]
    by_cases h1 : c = fffd
    · rw [if_pos h1]
      exact noFC_fixRunsCA t (n + 1)
    · rw [if_neg h1]
      by_cases h2 : c = 'C' ∧ n ≠ 0
      · rw [if_pos h2]
        exact ⟨fun hp => absurd hp.1 (by decide),
          noFC_cons (by decide) (noFC_fixRunsCA t 0)⟩
      · rw [if_neg h2]
        refine noFC_repl_cons n c _ (noFC_cons h1 (noFC_fixRunsCA t 0)) ?_
        by_cases hC : c = 'C'
        · right
          by_contra hn
          exact h2 ⟨hC, hn⟩
        · left
          exact hC

theorem fixRunsCA_acc_id : ∀ (s : List Char) (n : Nat), noFC s →
    (n ≠ 0 → s.head? ≠ some 'C') →
    fixRunsCA n s = List.replicate n fffd ++ s
  | [], n, _, _ => by
    rw [fixRunsCA]
    simp
  | c :: t, n, hfc, hhd => by
    rw [fixRunsCA_cons]
    by_cases h1 : c = fffd
    · rw [if_pos h1]
      have hth : (n + 1 ≠ 0) → t.head? ≠ some 'C' := by
        intro _ hh
        cases t with
        | nil => simp at hh
        | cons b t2 =>
          simp only [List.head?_cons, Option.some.injEq] at hh
          subst h1
          exact hfc.1 ⟨rfl, hh⟩
      rw [fixRunsCA_acc_id t (n + 1) (noFC_tail hfc) hth, h1,
        List.replicate_succ', List.append_assoc]
      rfl
    · have h2 : ¬(c = 'C' ∧ n ≠ 0) := by
        rintro ⟨rfl, hn⟩
        exact hhd hn rfl
      rw [if_neg h1, if_neg h2,
        fixRunsCA_acc_id t 0 (noFC_tail hfc) (fun h0 => absurd rfl h0)]
      rfl

theorem fixRunsC_id_of_noFC {s : List Char} (h : noFC s) : fixRunsC s = s := by
  rw [fixRunsC, fixRunsCA_acc_id s 0 h (fun h0 => absurd rfl h0)]
  rfl

theorem replaceFFC_id_of_noFC : ∀ s : List Char, noFC s → replaceFFC s = s
  | [], _ => rfl
  | [_], _ => rfl
  | [_, _], _ => rfl
  | c :: d :: e :: t, h => by
    have hcond : ¬(c = fffd ∧ d = fffd ∧ e = 'C') := by
      rintro ⟨-, rfl, rfl⟩
      exact h.2.1 ⟨rfl, rfl⟩
    rw [replaceFFC_cons3, if_neg hcond,
      replaceFFC_id_of_noFC (d :: e :: t) h.2]

theorem fixCelsius_idem (s : List Char) :
    fixCelsius (fixCelsius s) = fixCelsius s := by
  have hy : noFC (fixCelsius s) := noFC_fixRunsCA (replaceFFC s) 0
  conv_lhs => rw [fixCelsius]
  rw [replaceFFC_id_of_noFC _ hy, fixRunsC_id_of_noFC hy]

/-! ### URL removal: step equations for the fuel-indexed scan -/

theorem head_dropWhile_false (p : Char → Bool) :
    ∀ (l : List Char) (c : Char), ((l.dropWhile p).head? = some c) → p c = false
  | [], c, h => by simp at h
  | a :: t, c, h => by
    by_cases ha : p a = true
    · exact head_dropWhile_false p t c
        (by simpa [List.dropWhile_cons, ha] using h)
    · rw [List.dropWhile_cons, if_neg (by simp [ha])] at h
      simp only [List.head?_cons, Option.some.injEq] at h
      rw [← h]
      simpa using ha

theorem drop_takeWhile_length (p : Char → Bool) :
    ∀ l : List Char, l.drop (l.takeWhile p).length = l.dropWhile p
  | [] => rfl
  | c :: t => by
    by_cases h : p c = true
    · rw [List.takeWhile_cons, if_pos h, List.dropWhile_cons, if_pos h,
        List.length_cons, List.drop_succ_cons]
      exact drop_takeWhile_length p t
    · rw [List.takeWhile_cons, if_neg h, List.dropWhile_cons, if_neg h,
        List.length_nil, List.drop_zero]

theorem nonWsRun_ne_iff (t : List Char) :
    nonWsRun t ≠ 0 ↔ ∃ c, t.head? = some c ∧ isPyWs c = false := by
  cases t with
  | nil => simp [nonWsRun]
  | cons c u =>
    rw [nonWsRun, List.takeWhile_cons]
    by_cases h : isPyWs c = true
    · simp [h]
    · simp only [Bool.not_eq_true] at h
      simp [h]

theorem matchUrlAt_nil : matchUrlAt [] = none := rfl

theorem matchUrlAt_pos {t : List Char} {n : Nat} (h : matchUrlAt t = some n) :
    1 ≤ n := by
  rw [matchUrlAt] at h
  dsimp only at h
  repeat' split at h
  all_goals try cases h
  all_goals omega

theorem removeUrlsF_nil : ∀ k, removeUrlsF k [] = []
  | 0 => rfl
  | _ + 1 => rfl

theorem removeUrlsF_congr : ∀ (k k' : Nat) (s : List Char),
    s.length ≤ k → s.length ≤ k' → removeUrlsF k s = removeUrlsF k' s
  | _, _, [], _, _ => by rw [removeUrlsF_nil, removeUrlsF_nil]
  | k, k', c :: t, hk, hk' => by
    rw [List.length_cons] at hk hk'
    cases k with
    | zero => omega
    | succ k0 =>
      cases k' with
      | zero => omega
      | succ k0' =>
        rw [removeUrlsF, removeUrlsF]
        cases hm : matchUrlAt (c :: t) with
        | some n =>
          have hn := matchUrlAt_pos hm
          have hlen : ((c :: t).drop n).length ≤ k0 := by
            rw [List.length_drop, List.length_cons]
            omega
          have hlen' : ((c :: t).drop n).length ≤ k0' := by
            rw [List.length_drop, List.length_cons]
            omega
          exact removeUrlsF_congr k0 k0' _ hlen hlen'
        | none =>
          rw [removeUrlsF_congr k0 k0' t (by omega) (by omega)]
termination_by k _ _ => k

theorem remove_urls_nil : remove_urls [] = [] := rfl

theorem remove_urls_cons_none {c : Char} {t : List Char}
    (h : matchUrlAt (c :: t) = none) :
    remove_urls (c :: t) = c :: remove_urls t := by
  rw [remove_urls, remove_urls, List.length_cons, removeUrlsF, h]

theorem remove_urls_cons_some {c : Char} {t : List Char} {n : Nat}
    (h : matchUrlAt (c :: t) = some n) :
    remove_urls (c :: t) = remove_urls ((c :: t).drop n) := by
  rw [remove_urls, remove_urls, List.length_cons, removeUrlsF, h]
  have hn := matchUrlAt_pos h
  exact removeUrlsF_congr _ _ _
    (by rw [List.length_drop, List.length_cons]; omega) le_rfl

/-! ### URL removal: the five alternative shapes of `URL_PATTERN` -/

/-- `https?://[^\s]+` with the `s`. -/
def AltHttpS (t : List Char) : Prop :=
  beginsWith "https://".toList t = true ∧ nonWsRun (t.drop 8) ≠ 0

/-- `https?://[^\s]+` without the `s`. -/
def AltHttp (t : List Char) : Prop :=
  beginsWith "http://".toList t = true ∧ nonWsRun (t.drop 7) ≠ 0

/-- `www\.[a-zA-Z0-9][a-zA-Z0-9-]*\.[^\s]+`. -/
def AltWww (t : List Char) : Prop :=
  beginsWith "www.".toList t = true ∧
  ∃ c u v, t.drop 4 = c :: u ∧ isAlnumAscii c = true ∧
    u.drop (u.takeWhile isAlnumDash).length = '.' :: v ∧ nonWsRun v ≠ 0

/-- `doi\.org/[^\s]+`. -/
def AltDoiOrg (t : List Char) : Prop :=
  beginsWith "doi.org/".toList t = true ∧ nonWsRun (t.drop 8) ≠ 0

/-- `doi:\s*[^\s]+`. -/
def AltDoiC (t : List Char) : Prop :=
  beginsWith "doi:".toList t = true ∧
  nonWsRun (t.drop (4 + wsRun (t.drop 4))) ≠ 0

theorem begins_conflict {p q t : List Char} (hp : beginsWith p t = true)
    (hq : beginsWith q t = true) (hlen : p.length ≤ q.length) : p <+: q :=
  List.prefix_of_prefix_length_le ((beginsWith_iff _ _).mp hp)
    ((beginsWith_iff _ _).mp hq) hlen

theorem begins_false_of_conflict {p q t : List Char}
    (hp : beginsWith p t = true) (hnpq : ¬(p <+: q)) (hnqp : ¬(q <+: p)) :
    beginsWith q t = false := by
  cases hq : beginsWith q t
  · rfl
  · exfalso
    rcases Nat.le_total p.length q.length with hle | hle
    · exact hnpq (begins_conflict hp hq hle)
    · exact hnqp (begins_conflict hq hp hle)

theorem matchUrlAt_some_alt {t : List Char} {n : Nat}
    (h : matchUrlAt t = some n) :
    AltHttpS t ∨ AltHttp t ∨ AltWww t ∨ AltDoiOrg t ∨ AltDoiC t := by
  rw [matchUrlAt] at h
  dsimp only at h
  repeat' split at h
  any_goals cases h
  · rename_i hbw hj
    exact Or.inl ⟨hbw, hj⟩
  · rename_i hbw hj
    exact Or.inr (Or.inl ⟨hbw, hj⟩)
  · rename_i hbw x1 c0 cs0 hdrop hal x2 v0 hdot hj
    exact Or.inr (Or.inr (Or.inl ⟨hbw, c0, cs0, v0, hdrop, hal, hdot, hj⟩))
  · rename_i hbw hj
    exact Or.inr (Or.inr (Or.inr (Or.inl ⟨hbw, hj⟩)))
  · rename_i hbw hj
    exact Or.inr (Or.inr (Or.inr (Or.inr ⟨hbw, hj⟩)))

theorem altHttpS_matches {t : List Char} (h : AltHttpS t) :
    ∃ n, matchUrlAt t = some n := by
  obtain ⟨hbw, hj⟩ := h
  refine ⟨8 + nonWsRun (t.drop 8), ?_⟩
  rw [matchUrlAt]
  dsimp only
  rw [if_pos hbw, if_neg hj]

theorem altHttp_matches {t : List Char} (h : AltHttp t) :
    ∃ n, matchUrlAt t = some n := by
  obtain ⟨hbw, hj⟩ := h
  have h1 : beginsWith ['h', 't', 't', 'p', 's', ':', '/', '/'] t = false :=
    begins_false_of_conflict hbw (by decide) (by decide)
  refine ⟨7 + nonWsRun (t.drop 7), ?_⟩
  rw [matchUrlAt]
  dsimp only
  rw [if_neg (by simp [h1]), if_pos hbw, if_neg hj]

theorem altWww_matches {t : List Char} (h : AltWww t) :
    ∃ n, matchUrlAt t = some n := by
  obtain ⟨hbw, c, u, v, hdrop, hal, hdot, hj⟩ := h
  have h1 : beginsWith ['h', 't', 't', 'p', 's', ':', '/', '/'] t = false :=
    begins_false_of_conflict hbw (by decide) (by decide)
  have h2 : beginsWith ['h', 't', 't', 'p', ':', '/', '/'] t = false :=
    begins_false_of_conflict hbw (by decide) (by decide)
  refine ⟨6 + (u.takeWhile isAlnumDash).length + nonWsRun v, ?_⟩
  rw [matchUrlAt]
  dsimp only
  rw [if_neg (by simp [h1]), if_neg (by simp [h2]), if_pos hbw, hdrop]
  try dsimp only
  rw [if_pos hal, hdot]
  show (if nonWsRun v = 0 then none
    else some (6 + (u.takeWhile isAlnumDash).length + nonWsRun v)) = _
  rw [if_neg hj]

theorem altDoiOrg_matches {t : List Char} (h : AltDoiOrg t) :
    ∃ n, matchUrlAt t = some n := by
  obtain ⟨hbw, hj⟩ := h
  have h1 : beginsWith ['h', 't', 't', 'p', 's', ':', '/', '/'] t = false :=
    begins_false_of_conflict hbw (by decide) (by decide)
  have h2 : beginsWith ['h', 't', 't', 'p', ':', '/', '/'] t = false :=
    begins_false_of_conflict hbw (by decide) (by decide)
  have h3 : beginsWith ['w', 'w', 'w', '.'] t = false :=
    begins_false_of_conflict hbw (by decide) (by decide)
  refine ⟨8 + nonWsRun (t.drop 8), ?_⟩
  rw [matchUrlAt]
  dsimp only
  rw [if_neg (by simp [h1]), if_neg (by simp [h2]), if_neg (by simp [h3]),
    if_pos hbw, if_neg hj]

theorem altDoiC_matches {t : List Char} (h : AltDoiC t) :
    ∃ n, matchUrlAt t = some n := by
  obtain ⟨hbw, hj⟩ := h
  have h1 : beginsWith ['h', 't', 't', 'p', 's', ':', '/', '/'] t = false :=
    begins_false_of_conflict hbw (by decide) (by decide)
  have h2 : beginsWith ['h', 't', 't', 'p', ':', '/', '/'] t = false :=
    begins_false_of_conflict hbw (by decide) (by decide)
  have h3 : beginsWith ['w', 'w', 'w', '.'] t = false :=
    begins_false_of_conflict hbw (by decide) (by decide)
  have h4 : beginsWith ['d', 'o', 'i', '.', 'o', 'r', 'g', '/'] t = false :=
    begins_false_of_conflict hbw (by decide) (by decide)
  refine ⟨4 + wsRun (t.drop 4) + nonWsRun (t.drop (4 + wsRun (t.drop 4))), ?_⟩
  rw [matchUrlAt]
  dsimp only
  rw [if_neg (by simp [h1]), if_neg (by simp [h2]), if_neg (by simp [h3]),
    if_neg (by simp [h4]), if_pos hbw, if_neg hj]

/-! ### URL removal: no new match appears after removing a leftmost match

A removed match always extends to a whitespace boundary (or the end), so the
text after a removal is the text before it with a non-whitespace block `M`
deleted in front of a whitespace-or-empty remainder.  The lemmas below show
that deleting such a block cannot create a match that was not already there. -/

/-- The list is empty or starts with whitespace. -/
def wsHeadOrNil (l : List Char) : Prop :=
  l = [] ∨ ∃ r rs, l = r :: rs ∧ isPyWs r = true

/-- The list starts with a non-whitespace character. -/
def nonWsHead (l : List Char) : Prop :=
  ∃ m ms, l = m :: ms ∧ isPyWs m = false

theorem isAlnumAscii_not_ws {c : Char} (h : isAlnumAscii c = true) :
    isPyWs c = false := by
  rw [isAlnumAscii, Bool.or_eq_true] at h
  rcases h with h | h
  · exact isLetterAZ_not_ws h
  · cases hw : isPyWs c with
    | false => rfl
    | true =>
      exfalso
      rw [isDigitC, Bool.and_eq_true] at h
      simp only [decide_eq_true_eq] at h
      rw [isPyWs] at hw
      simp only [Bool.or_eq_true, beq_iff_eq] at hw
      rcases hw with ((((rfl | rfl) | rfl) | rfl) | rfl) | rfl <;>
        exact absurd h (by decide)

theorem isAlnumDash_not_ws {c : Char} (h : isAlnumDash c = true) :
    isPyWs c = false := by
  rw [isAlnumDash, Bool.or_eq_true] at h
  rcases h with h | h
  · exact isAlnumAscii_not_ws h
  · rw [beq_iff_eq] at h
    subst h
    rfl

/-- A whitespace-free literal matched at the head of `pre ++ rem` with `rem`
empty or whitespace-headed lies entirely within `pre`. -/
theorem lit_fits_pre {lit pre rem : List Char}
    (hlit : ∀ c ∈ lit, isPyWs c = false)
    (hrem : wsHeadOrNil rem)
    (hb : beginsWith lit (pre ++ rem) = true) : lit <+: pre := by
  have hpfx : lit <+: pre ++ rem := (beginsWith_iff _ _).mp hb
  rcases Nat.le_total lit.length pre.length with hle | hle
  · exact List.prefix_of_prefix_length_le hpfx (List.prefix_append pre rem) hle
  · have hppre : pre <+: lit :=
      List.prefix_of_prefix_length_le (List.prefix_append pre rem) hpfx hle
    obtain ⟨lit2, hl2⟩ := hppre
    cases hlit2 : lit2 with
    | nil =>
      rw [hlit2, List.append_nil] at hl2
      rw [← hl2]
    | cons l0 ls =>
      exfalso
      obtain ⟨u, hu⟩ := hpfx
      rw [← hl2, hlit2, List.append_assoc] at hu
      have hl0mem : l0 ∈ lit := by
        rw [← hl2, hlit2]
        exact List.mem_append_right _ (List.mem_cons_self _ _)
      have hl0 : isPyWs l0 = false := hlit l0 hl0mem
      have hrem2 : (l0 :: ls) ++ u = rem := List.append_cancel_left hu
      rcases hrem with rfl | ⟨r, rs, hr, hwr⟩
      · exact absurd hrem2 (by simp)
      · rw [hr] at hrem2
        rw [List.cons_append] at hrem2
        injection hrem2 with h1 h2
        rw [h1] at hl0
        rw [hl0] at hwr
        cases hwr

/-- Transfer of a "literal then non-whitespace run" alternative across the
deletion of the block `M`. -/
theorem litrun_transfer (lit : List Char) (L : Nat) {pre M rem : List Char}
    (hlit : ∀ c ∈ lit, isPyWs c = false) (hL : L = lit.length)
    (hrem : wsHeadOrNil rem)
    (hb : beginsWith lit (pre ++ rem) = true)
    (hj : nonWsRun ((pre ++ rem).drop L) ≠ 0) :
    beginsWith lit (pre ++ (M ++ rem)) = true ∧
    nonWsRun ((pre ++ (M ++ rem)).drop L) ≠ 0 := by
  have hfit := lit_fits_pre hlit hrem hb
  have hLle : L ≤ pre.length := by
    rw [hL]
    exact hfit.length_le
  refine ⟨(beginsWith_iff _ _).mpr (hfit.trans (List.prefix_append _ _)), ?_⟩
  rw [List.drop_append_of_le_length hLle] at hj ⊢
  rw [nonWsRun_ne_iff] at hj ⊢
  obtain ⟨c, hc, hw⟩ := hj
  cases hd : pre.drop L with
  | nil =>
    exfalso
    rw [hd, List.nil_append] at hc
    rcases hrem with rfl | ⟨r, rs, hr, hwsr⟩
    · cases hc
    · rw [hr] at hc
      simp only [List.head?_cons, Option.some.injEq] at hc
      rw [hc] at hwsr
      rw [hwsr] at hw
      cases hw
  | cons d ds =>
    refine ⟨c, ?_, hw⟩
    rw [hd] at hc
    rw [List.cons_append, List.head?_cons] at hc ⊢
    exact hc

theorem altHttpS_transfer {pre M rem : List Char}
    (hrem : wsHeadOrNil rem) (h : AltHttpS (pre ++ rem)) :
    AltHttpS (pre ++ (M ++ rem)) := by
  obtain ⟨hb, hj⟩ := h
  exact litrun_transfer "https://".toList 8 (by decide) (by decide) hrem hb hj

theorem altHttp_transfer {pre M rem : List Char}
    (hrem : wsHeadOrNil rem) (h : AltHttp (pre ++ rem)) :
    AltHttp (pre ++ (M ++ rem)) := by
  obtain ⟨hb, hj⟩ := h
  exact litrun_transfer "http://".toList 7 (by decide) (by decide) hrem hb hj

theorem altDoiOrg_transfer {pre M rem : List Char}
    (hrem : wsHeadOrNil rem) (h : AltDoiOrg (pre ++ rem)) :
    AltDoiOrg (pre ++ (M ++ rem)) := by
  obtain ⟨hb, hj⟩ := h
  exact litrun_transfer "doi.org/".toList 8 (by decide) (by decide) hrem hb hj

theorem altWww_transfer {pre M rem : List Char}
    (hrem : wsHeadOrNil rem) (h : AltWww (pre ++ rem)) :
    AltWww (pre ++ (M ++ rem)) := by
  obtain ⟨hb, c, u, v, hdrop, hal, hdot, hj⟩ := h
  have hfit : "www.".toList <+: pre := lit_fits_pre (by decide) hrem hb
  have h4 : 4 ≤ pre.length := by
    have := hfit.length_le
    simpa using this
  refine ⟨(beginsWith_iff _ _).mpr (hfit.trans (List.prefix_append _ _)), ?_⟩
  have hd4 : (pre ++ rem).drop 4 = pre.drop 4 ++ rem :=
    List.drop_append_of_le_length h4
  have hd4' : (pre ++ (M ++ rem)).drop 4 = pre.drop 4 ++ (M ++ rem) :=
    List.drop_append_of_le_length h4
  rw [hd4] at hdrop
  cases hp4 : pre.drop 4 with
  | nil =>
    exfalso
    rw [hp4, List.nil_append] at hdrop
    rcases hrem with rfl | ⟨r, rs, hr, hwr⟩
    · cases hdrop
    · rw [hr] at hdrop
      injection hdrop with h1 h2
      rw [← h1] at hal
      rw [isAlnumAscii_not_ws hal] at hwr
      cases hwr
  | cons p0 ps =>
    rw [hp4, List.cons_append] at hdrop
    injection hdrop with hc hu
    subst hc
    subst hu
    have hremtw : rem.takeWhile isAlnumDash = [] := by
      rcases hrem with rfl | ⟨r, rs, hr, hwr⟩
      · rfl
      · have hcon : isAlnumDash r = false := by
          cases had : isAlnumDash r with
          | false => rfl
          | true =>
            rw [isAlnumDash_not_ws had] at hwr
            cases hwr
        rw [hr, List.takeWhile_cons, if_neg (by simp [hcon])]
    by_cases hfull : (ps.takeWhile isAlnumDash).length = ps.length
    · exfalso
      rw [List.takeWhile_append, if_pos hfull, hremtw, List.append_nil,
        List.drop_left] at hdot
      rcases hrem with rfl | ⟨r, rs, hr, hwr⟩
      · cases hdot
      · rw [hr] at hdot
        injection hdot with h1 h2
        rw [h1] at hwr
        exact absurd hwr (by decide)
    · have hlt : (ps.takeWhile isAlnumDash).length < ps.length :=
        lt_of_le_of_ne (List.takeWhile_prefix _).length_le hfull
      rw [List.takeWhile_append, if_neg hfull,
        List.drop_append_of_le_length (le_of_lt hlt)] at hdot
      have hne : ps.drop (ps.takeWhile isAlnumDash).length ≠ [] := by
        apply List.ne_nil_of_length_pos
        rw [List.length_drop]
        omega
      cases hpd : ps.drop (ps.takeWhile isAlnumDash).length with
      | nil => exact absurd hpd hne
      | cons q0 qs =>
        rw [hpd, List.cons_append] at hdot
        injection hdot with hq0 hv
        refine ⟨p0, ps ++ (M ++ rem), qs ++ (M ++ rem), ?_, hal, ?_, ?_⟩
        · rw [hd4', hp4, List.cons_append]
        · rw [List.takeWhile_append, if_neg hfull,
            List.drop_append_of_le_length (le_of_lt hlt), hpd, hq0,
            List.cons_append]
        · rw [nonWsRun_ne_iff]
          rw [nonWsRun_ne_iff] at hj
          obtain ⟨cc, hcc, hwc⟩ := hj
          cases hqs : qs with
          | nil =>
            exfalso
            rw [← hv, hqs, List.nil_append] at hcc
            rcases hrem with rfl | ⟨r, rs, hr, hwr⟩
            · cases hcc
            · rw [hr, List.head?_cons] at hcc
              injection hcc with hcc'
              rw [← hcc'] at hwc
              rw [hwc] at hwr
              cases hwr
          | cons w0 w2 =>
            refine ⟨w0, by rw [List.cons_append, List.head?_cons], ?_⟩
            rw [← hv, hqs, List.cons_append, List.head?_cons] at hcc
            injection hcc with hcc'
            rw [hcc']
            exact hwc

theorem wsHeadOrNil_drop_nonWsRun (u : List Char) :
    wsHeadOrNil (u.drop (nonWsRun u)) := by
  rw [nonWsRun, drop_takeWhile_length]
  cases hd : u.dropWhile (fun c => !isPyWs c) with
  | nil => exact Or.inl rfl
  | cons r rs =>
    refine Or.inr ⟨r, rs, rfl, ?_⟩
    have := head_dropWhile_false (fun c => !isPyWs c) u r (by rw [hd]; rfl)
    simpa using this

theorem wsHeadOrNil_drop_add (t : List Char) (k : Nat) :
    wsHeadOrNil (t.drop (k + nonWsRun (t.drop k))) := by
  rw [← List.drop_drop]
  exact wsHeadOrNil_drop_nonWsRun _

theorem wsHeadOrNil_www_drop {t u v : List Char} {c : Char}
    (hdrop : t.drop 4 = c :: u)
    (hdot : u.drop (u.takeWhile isAlnumDash).length = '.' :: v) :
    wsHeadOrNil (t.drop (6 + (u.takeWhile isAlnumDash).length + nonWsRun v)) := by
  have h5 : t.drop 5 = u := by
    rw [show (5 : Nat) = 4 + 1 from rfl, ← List.drop_drop, hdrop,
      List.drop_one, List.tail_cons]
  have h6 : t.drop (6 + (u.takeWhile isAlnumDash).length + nonWsRun v) =
      v.drop (nonWsRun v) := by
    rw [show 6 + (u.takeWhile isAlnumDash).length + nonWsRun v =
        5 + (1 + (u.takeWhile isAlnumDash).length + nonWsRun v) from by omega,
      ← List.drop_drop, h5,
      show 1 + (u.takeWhile isAlnumDash).length + nonWsRun v =
        (u.takeWhile isAlnumDash).length + (1 + nonWsRun v) from by omega,
      ← List.drop_drop, hdot,
      show 1 + nonWsRun v = nonWsRun v + 1 from by omega,
      List.drop_succ_cons]
  rw [h6]
  exact wsHeadOrNil_drop_nonWsRun v

/-- Every successful match starts with two non-whitespace characters. -/
theorem matchUrlAt_shape {t : List Char} {n : Nat} (h : matchUrlAt t = some n) :
    ∃ a b t2, t = a :: b :: t2 ∧ isPyWs a = false ∧ isPyWs b = false := by
  rcases matchUrlAt_some_alt h with h' | h' | h' | h' | h'
  · obtain ⟨u, hu⟩ := (beginsWith_iff _ _).mp h'.1
    exact ⟨'h', 't', 't' :: 'p' :: 's' :: ':' :: '/' :: '/' :: u,
      by rw [← hu]; rfl, by decide, by decide⟩
  · obtain ⟨u, hu⟩ := (beginsWith_iff _ _).mp h'.1
    exact ⟨'h', 't', 't' :: 'p' :: ':' :: '/' :: '/' :: u,
      by rw [← hu]; rfl, by decide, by decide⟩
  · obtain ⟨u, hu⟩ := (beginsWith_iff _ _).mp h'.1
    exact ⟨'w', 'w', 'w' :: '.' :: u, by rw [← hu]; rfl, by decide, by decide⟩
  · obtain ⟨u, hu⟩ := (beginsWith_iff _ _).mp h'.1
    exact ⟨'d', 'o', 'i' :: '.' :: 'o' :: 'r' :: 'g' :: '/' :: u,
      by rw [← hu]; rfl, by decide, by decide⟩
  · obtain ⟨u, hu⟩ := (beginsWith_iff _ _).mp h'.1
    exact ⟨'d', 'o', 'i' :: ':' :: u, by rw [← hu]; rfl, by decide, by decide⟩

/-- What a successful match leaves behind is empty or whitespace-headed:
every alternative of `URL_PATTERN` ends in a greedy `[^\s]+` run. -/
theorem matchUrlAt_rem_ws {t : List Char} {n : Nat}
    (h : matchUrlAt t = some n) : wsHeadOrNil (t.drop n) := by
  rw [matchUrlAt] at h
  dsimp only at h
  repeat' split at h
  all_goals try cases h
  all_goals first
    | exact wsHeadOrNil_drop_add t 8
    | exact wsHeadOrNil_drop_add t 7
    | exact wsHeadOrNil_drop_add t (4 + wsRun (t.drop 4))
    | (rename_i hbw x1 c0 cs0 hdrop hal x2 v0 hdot hj
       exact wsHeadOrNil_www_drop hdrop hdot)

theorem altDoiC_transfer {pre M rem : List Char}
    (hM : nonWsHead M) (hrem : wsHeadOrNil rem) (h : AltDoiC (pre ++ rem)) :
    AltDoiC (pre ++ (M ++ rem)) := by
  obtain ⟨hb, hj⟩ := h
  have hfit : "doi:".toList <+: pre := lit_fits_pre (by decide) hrem hb
  have h4 : 4 ≤ pre.length := by
    have := hfit.length_le
    simpa using this
  refine ⟨(beginsWith_iff _ _).mpr (hfit.trans (List.prefix_append _ _)), ?_⟩
  have hd4 : (pre ++ rem).drop 4 = pre.drop 4 ++ rem :=
    List.drop_append_of_le_length h4
  have hd4' : (pre ++ (M ++ rem)).drop 4 = pre.drop 4 ++ (M ++ rem) :=
    List.drop_append_of_le_length h4
  obtain ⟨m, ms, hMc, hwm⟩ := hM
  by_cases hfull : ((pre.drop 4).takeWhile isPyWs).length = (pre.drop 4).length
  · have hw' : wsRun ((pre ++ (M ++ rem)).drop 4) = (pre.drop 4).length := by
      rw [hd4', wsRun, List.takeWhile_append, if_pos hfull, hMc,
        List.cons_append, List.takeWhile_cons, if_neg (by simp [hwm])]
      simp
    rw [hw']
    have hlen4 : 4 + (pre.drop 4).length = pre.length := by
      rw [List.length_drop]
      omega
    rw [hlen4, List.drop_left, nonWsRun_ne_iff]
    exact ⟨m, by rw [hMc, List.cons_append, List.head?_cons], hwm⟩
  · have hlt : ((pre.drop 4).takeWhile isPyWs).length < (pre.drop 4).length :=
      lt_of_le_of_ne (List.takeWhile_prefix _).length_le hfull
    have hwEq : wsRun ((pre ++ rem).drop 4) =
        ((pre.drop 4).takeWhile isPyWs).length := by
      rw [hd4, wsRun, List.takeWhile_append, if_neg hfull]
    have hwEq' : wsRun ((pre ++ (M ++ rem)).drop 4) =
        ((pre.drop 4).takeWhile isPyWs).length := by
      rw [hd4', wsRun, List.takeWhile_append, if_neg hfull]
    rw [hwEq] at hj
    rw [hwEq']
    have e1 : (pre ++ rem).drop (4 + ((pre.drop 4).takeWhile isPyWs).length) =
        (pre.drop 4).drop ((pre.drop 4).takeWhile isPyWs).length ++ rem := by
      rw [← List.drop_drop, hd4,
        List.drop_append_of_le_length (le_of_lt hlt)]
    have e2 : (pre ++ (M ++ rem)).drop
        (4 + ((pre.drop 4).takeWhile isPyWs).length) =
        (pre.drop 4).drop ((pre.drop 4).takeWhile isPyWs).length ++
          (M ++ rem) := by
      rw [← List.drop_drop, hd4',
        List.drop_append_of_le_length (le_of_lt hlt)]
    rw [e1] at hj
    rw [e2]
    have hne : (pre.drop 4).drop ((pre.drop 4).takeWhile isPyWs).length ≠
        [] := by
      apply List.ne_nil_of_length_pos
      rw [List.length_drop]
      omega
    rw [nonWsRun_ne_iff] at hj ⊢
    obtain ⟨cc, hcc, hwc⟩ := hj
    refine ⟨cc, ?_, hwc⟩
    rw [List.head?_append_of_ne_nil _ hne] at hcc
    rw [List.head?_append_of_ne_nil _ hne]
    exact hcc

/-- Deleting a non-whitespace block `M` sitting before a whitespace-or-empty
remainder cannot create a match where there was none. -/
theorem matchUrlAt_transfer {pre M rem : List Char} (hM : nonWsHead M)
    (hrem : wsHeadOrNil rem)
    (hnone : matchUrlAt (pre ++ (M ++ rem)) = none) :
    matchUrlAt (pre ++ rem) = none := by
  cases hm : matchUrlAt (pre ++ rem) with
  | none => rfl
  | some n =>
    exfalso
    have hsome : ∃ k, matchUrlAt (pre ++ (M ++ rem)) = some k := by
      rcases matchUrlAt_some_alt hm with h | h | h | h | h
      · exact altHttpS_matches (altHttpS_transfer (M := M) hrem h)
      · exact altHttp_matches (altHttp_transfer (M := M) hrem h)
      · exact altWww_matches (altWww_transfer (M := M) hrem h)
      · exact altDoiOrg_matches (altDoiOrg_transfer (M := M) hrem h)
      · exact altDoiC_matches (altDoiC_transfer hM hrem h)
    obtain ⟨k, hk⟩ := hsome
    rw [hk] at hnone
    cases hnone

/-- If no match starts anywhere in `pre ++ s`, none starts in
`pre ++ remove_urls s` either: removal only deletes matched blocks, each a
non-whitespace run up to a whitespace boundary. -/
theorem matchUrlAt_removeUrls_none : ∀ (s pre : List Char),
    matchUrlAt (pre ++ s) = none → matchUrlAt (pre ++ remove_urls s) = none
  | [], _, h => by rwa [remove_urls_nil]
  | c :: t, pre, h => by
    cases hm : matchUrlAt (c :: t) with
    | none =>
      rw [remove_urls_cons_none hm,
        show pre ++ c :: remove_urls t = (pre ++ [c]) ++ remove_urls t from
          by simp]
      exact matchUrlAt_removeUrls_none t (pre ++ [c])
        (by rwa [show (pre ++ [c]) ++ t = pre ++ c :: t from by simp])
    | some n =>
      rw [remove_urls_cons_some hm]
      obtain ⟨kk, hkk⟩ : ∃ kk, n = kk + 1 := ⟨n - 1, by
        have := matchUrlAt_pos hm
        omega⟩
      have hMhead : nonWsHead ((c :: t).take n) := by
        obtain ⟨a, b, t2, hab, hwa, hwb⟩ := matchUrlAt_shape hm
        injection hab with h1 h2
        refine ⟨c, t.take kk, ?_, ?_⟩
        · rw [hkk, List.take_succ_cons]
        · rw [h1]
          exact hwa
      have hremws : wsHeadOrNil ((c :: t).drop n) := matchUrlAt_rem_ws hm
      have htr : matchUrlAt (pre ++ (c :: t).drop n) = none := by
        apply matchUrlAt_transfer hMhead hremws
        rwa [show pre ++ ((c :: t).take n ++ (c :: t).drop n) = pre ++ c :: t
          from by rw [List.take_append_drop]]
      exact matchUrlAt_removeUrls_none ((c :: t).drop n) pre htr
  termination_by s _ => s.length
  decreasing_by
    all_goals simp only [List.length_drop, List.length_cons]
    all_goals omega

/-- No suffix of the list starts a `URL_PATTERN` match. -/
def noUrlAnywhere (t : List Char) : Prop :=
  ∀ u, u <:+ t → matchUrlAt u = none

theorem remove_urls_of_noUrl : ∀ t : List Char,
    noUrlAnywhere t → remove_urls t = t
  | [], _ => rfl
  | c :: t, h => by
    rw [remove_urls_cons_none (h (c :: t) (List.suffix_refl _)),
      remove_urls_of_noUrl t (fun u hu => h u (hu.trans (List.suffix_cons c t)))]

theorem noUrl_remove_urls : ∀ s : List Char, noUrlAnywhere (remove_urls s)
  | [] => by
    rw [remove_urls_nil]
    intro u hu
    rw [List.suffix_nil.mp hu]
    rfl
  | c :: t => by
    cases hm : matchUrlAt (c :: t) with
    | some n =>
      rw [remove_urls_cons_some hm]
      exact noUrl_remove_urls ((c :: t).drop n)
    | none =>
      rw [remove_urls_cons_none hm]
      intro u hu
      rcases List.suffix_cons_iff.mp hu with rfl | hu'
      · have := matchUrlAt_removeUrls_none t [c]
          (by rwa [List.singleton_append])
        rwa [List.singleton_append] at this
      · exact noUrl_remove_urls t u hu'
  termination_by s => s.length
  decreasing_by
    all_goals simp only [List.length_drop, List.length_cons]
    all_goals first
      | omega
      | (have hp := matchUrlAt_pos hm
         omega)

/-- `URL_PATTERN.sub` is idempotent: its output contains no match. -/
theorem remove_urls_idem (s : List Char) :
    remove_urls (remove_urls s) = remove_urls s :=
  remove_urls_of_noUrl _ (noUrl_remove_urls s)

/-! ### Spaced-capitals collapse: scan with exact fuel, step equations -/

theorem isCap_not_ws {c : Char} (h : isCap c = true) : isPyWs c = false := by
  apply isLetterAZ_not_ws
  rw [isLetterAZ, h]
  rfl

theorem ws_not_cap {c : Char} (h : isPyWs c = true) : isCap c = false := by
  cases hc : isCap c with
  | false => rfl
  | true =>
    rw [isCap_not_ws hc] at h
    cases h

theorem isCap_word {c : Char} (h : isCap c = true) : isWordChar c = true := by
  rw [isWordChar, isAlnumAscii, isLetterAZ, h]
  rfl

theorem isCap_not_space {c : Char} (h : isCap c = true) : c ≠ ' ' := by
  intro hc
  rw [hc] at h
  exact absurd h (by decide)

theorem ws_not_word {c : Char} (h : isPyWs c = true) : isWordChar c = false := by
  cases hw : isWordChar c with
  | false => rfl
  | true =>
    exfalso
    rw [isWordChar, Bool.or_eq_true] at hw
    rcases hw with hw | hw
    · rw [isAlnumAscii_not_ws hw] at h
      cases h
    · rw [beq_iff_eq] at hw
      rw [hw] at h
      exact absurd h (by decide)

theorem collapseF_nil : ∀ (k : Nat) (b : Bool), collapseF k b [] = []
  | 0, _ => rfl
  | _ + 1, _ => rfl

theorem collapseStep_rest_le {c : Char} {t span rest : List Char}
    (h : collapseStep c t = some (span, rest)) : rest.length ≤ t.length := by
  rw [collapseStep] at h
  dsimp only at h
  repeat' split at h
  all_goals cases h
  all_goals rw [List.length_drop]
  all_goals omega

theorem collapseF_congr : ∀ (k k' : Nat) (b : Bool) (t : List Char),
    t.length ≤ k → t.length ≤ k' → collapseF k b t = collapseF k' b t
  | _, _, _, [], _, _ => by rw [collapseF_nil, collapseF_nil]
  | k, k', b, c :: t, hk, hk' => by
    rw [List.length_cons] at hk hk'
    cases k with
    | zero => omega
    | succ k0 =>
      cases k' with
      | zero => omega
      | succ k0' =>
        rw [collapseF, collapseF]
        cases hbc : b && isCap c with
        | false =>
          rw [if_neg Bool.false_ne_true, if_neg Bool.false_ne_true,
            collapseF_congr k0 k0' _ t (by omega) (by omega)]
        | true =>
          rw [if_pos rfl, if_pos rfl]
          cases hcs : collapseStep c t with
          | none =>
            dsimp only
            rw [collapseF_congr k0 k0' false t (by omega) (by omega)]
          | some pr =>
            obtain ⟨span, rest⟩ := pr
            have hr := collapseStep_rest_le hcs
            dsimp only
            rw [collapseF_congr k0 k0' false rest (by omega) (by omega)]
termination_by k _ _ _ => k

/-- The collapse scan with exact fuel. -/
def cScan (b : Bool) (t : List Char) : List Char :=
  collapseF t.length b t

theorem collapse_eq_cScan (s : List Char) :
    collapse_spaced_capital_sequences s = cScan true s := rfl

theorem cScan_nil (b : Bool) : cScan b [] = [] := rfl

theorem cScan_copy {b : Bool} {c : Char} (t : List Char)
    (h : (b && isCap c) = false) :
    cScan b (c :: t) = c :: cScan (!isWordChar c) t := by
  rw [cScan, List.length_cons, collapseF,
    if_neg (by rw [h]; exact Bool.false_ne_true), cScan]

theorem cScan_fail {b : Bool} {c : Char} {t : List Char}
    (hb : (b && isCap c) = true) (h : collapseStep c t = none) :
    cScan b (c :: t) = c :: cScan false t := by
  rw [cScan, List.length_cons, collapseF, if_pos hb, h, cScan]

theorem cScan_matched {b : Bool} {c : Char} {t span rest : List Char}
    (hb : (b && isCap c) = true) (h : collapseStep c t = some (span, rest)) :
    cScan b (c :: t) =
      span.filter (fun x => x ≠ ' ') ++ cScan false rest := by
  rw [cScan, List.length_cons, collapseF, if_pos hb, h]
  dsimp only
  rw [cScan, collapseF_congr t.length rest.length false rest
    (collapseStep_rest_le h) le_rfl]

/-- Whitespace is copied through the scan verbatim, leaving the boundary
flag set. -/
theorem cScan_ws_copy : ∀ (w : List Char) (b : Bool) (X : List Char),
    w ≠ [] → (∀ x ∈ w, isPyWs x = true) →
    cScan b (w ++ X) = w ++ cScan true X
  | [], _, _, hne, _ => absurd rfl hne
  | x :: w', b, X, _, hws => by
    have hx : isPyWs x = true := hws x (List.mem_cons_self _ _)
    rw [List.cons_append,
      cScan_copy _ (by rw [ws_not_cap hx, Bool.and_false]),
      ws_not_word hx, Bool.not_false]
    cases hw' : w' with
    | nil => simp
    | cons y w'' =>
      rw [cScan_ws_copy (y :: w'') true X (List.cons_ne_nil y w'')
        (fun z hz => hws z (List.mem_cons_of_mem _ (by rw [hw']; exact hz)))]
      rfl
termination_by w _ _ _ _ => w.length
decreasing_by
  simp only [List.length_cons]
  rw [hw', List.length_cons]
  omega

/-! ### Spaced-capitals collapse: structure of the chain parse -/

/-- A "link" of a spaced-capitals chain: a nonempty whitespace run followed
by one capital. -/
def IsLink (l : List Char) : Prop :=
  ∃ w C, l = w ++ [C] ∧ w ≠ [] ∧ (∀ x ∈ w, isPyWs x = true) ∧ isCap C = true

/-- A filtered link: a (possibly emptied) space-free whitespace run followed
by one capital. -/
def IsFLink (l : List Char) : Prop :=
  ∃ w C, l = w ++ [C] ∧ (∀ x ∈ w, isPyWs x = true ∧ x ≠ ' ') ∧ isCap C = true

/-- The `afterOk` test of `collapseStep` on the text after the chain. -/
def afterOkB (r : List Char) : Bool :=
  match r.head? with
  | none => true
  | some x => !isWordChar x

theorem afterOkB_nil : afterOkB [] = true := rfl

theorem afterOkB_cons (d : Char) (X : List Char) :
    afterOkB (d :: X) = !isWordChar d := rfl

theorem linksA_ws_accum : ∀ (w pend X : List Char),
    (∀ x ∈ w, isPyWs x = true) →
    linksA pend (w ++ X) = linksA (w.reverse ++ pend) X
  | [], pend, X, _ => by rw [List.nil_append, List.reverse_nil, List.nil_append]
  | x :: w', pend, X, h => by
    rw [List.cons_append, linksA, if_pos (h x (List.mem_cons_self _ _)),
      linksA_ws_accum w' (x :: pend) X
        (fun z hz => h z (List.mem_cons_of_mem _ hz)),
      List.reverse_cons, List.append_assoc, List.singleton_append]

theorem linksA_nil_of_head {d : Char} (X : List Char) (hd : isPyWs d = false) :
    linksA [] (d :: X) = [] := by
  rw [linksA, if_neg (by rw [hd]; exact Bool.false_ne_true),
    if_neg (fun h => h.2 rfl)]

theorem linksA_flatten_links : ∀ (ls : List (List Char)) (X : List Char),
    (∀ l ∈ ls, IsLink l) →
    linksA [] (ls.flatten ++ X) = ls ++ linksA [] X
  | [], X, _ => by rw [List.flatten_nil, List.nil_append, List.nil_append]
  | l :: ls', X, h => by
    obtain ⟨w, C, hl, hwne, hws, hC⟩ := h l (List.mem_cons_self _ _)
    rw [List.flatten_cons, hl, List.append_assoc, List.append_assoc,
      linksA_ws_accum w _ _ hws, List.append_nil, List.singleton_append,
      linksA, if_neg (by rw [isCap_not_ws hC]; exact Bool.false_ne_true),
      if_pos ⟨hC, by simpa using hwne⟩, List.reverse_reverse, ← hl,
      linksA_flatten_links ls' X (fun z hz => h z (List.mem_cons_of_mem _ hz)),
      List.cons_append]

/-- Inversion of the chain parse: a produced link is a whitespace run (the
pending accumulator plus newly read whitespace) followed by a capital, and
the remaining links are the parse of the rest. -/
theorem linksA_cons_inv : ∀ (t pend : List Char) {l : List Char}
    {ls' : List (List Char)},
    linksA pend t = l :: ls' →
    ∃ w C t2, (∀ x ∈ w, isPyWs x = true) ∧ t = w ++ C :: t2 ∧
      l = pend.reverse ++ w ++ [C] ∧ isCap C = true ∧
      pend.reverse ++ w ≠ [] ∧ ls' = linksA [] t2
  | [], _, _, _, h => by cases h
  | c :: t', pend, l, ls', h => by
    rw [linksA] at h
    by_cases hws : isPyWs c = true
    · rw [if_pos hws] at h
      obtain ⟨w, C, t2, hw, ht, hl, hC, hne, hls⟩ :=
        linksA_cons_inv t' (c :: pend) h
      refine ⟨c :: w, C, t2, ?_, ?_, ?_, hC, ?_, hls⟩
      · intro z hz
        rcases List.mem_cons.mp hz with rfl | hz'
        · exact hws
        · exact hw z hz'
      · rw [ht, List.cons_append]
      · rw [hl, List.reverse_cons]
        simp [List.append_assoc]
      · simp
    · rw [if_neg hws] at h
      by_cases hcp : isCap c = true ∧ pend ≠ []
      · rw [if_pos hcp] at h
        injection h with h1 h2
        exact ⟨[], c, t', by simp, by rw [List.nil_append], by rw [← h1]; simp,
          hcp.1, by simpa using hcp.2, h2.symm⟩
      · rw [if_neg hcp] at h
        cases h

/-- The chain parse decomposes the text into its links followed by a
remainder on which the parse is empty. -/
theorem chainLinks_decomp : ∀ t : List Char,
    (∀ l ∈ chainLinks t, IsLink l) ∧
    ∃ r, t = (chainLinks t).flatten ++ r ∧ chainLinks r = []
  | t => by
    show (∀ l ∈ chainLinks t, IsLink l) ∧
      ∃ r, t = (chainLinks t).flatten ++ r ∧ chainLinks r = []
    cases hc : chainLinks t with
    | nil =>
      exact ⟨by simp [hc], t, by rw [List.flatten_nil, List.nil_append], hc⟩
    | cons l ls' =>
      obtain ⟨w, C, t2, hw, ht, hl, hC, hne, hls⟩ := linksA_cons_inv t [] hc
      have hlen : t2.length < t.length := by
        rw [ht, List.length_append, List.length_cons]
        omega
      obtain ⟨hAll, r, hr, hrnil⟩ := chainLinks_decomp t2
      refine ⟨?_, r, ?_, hrnil⟩
      · intro z hz
        rcases List.mem_cons.mp hz with rfl | hz'
        · exact ⟨w, C, by simpa using hl, by simpa using hne, hw, hC⟩
        · rw [hls] at hz'
          exact hAll z hz'
      · rw [List.flatten_cons, hl, ht, show ls' = chainLinks t2 from hls,
          show C :: t2 = [C] ++ ((chainLinks t2).flatten ++ r) from by
            rw [← hr, List.singleton_append]]
        simp [List.append_assoc]
  termination_by t => t.length

theorem collapseStep_eval (c : Char) {t : List Char} {ls : List (List Char)}
    {r : List Char} (hls : chainLinks t = ls) (ht : t = ls.flatten ++ r) :
    collapseStep c t =
      if afterOkB r = true then
        if 3 ≤ ls.length + 1 then some (c :: ls.flatten, r) else none
      else
        if 4 ≤ ls.length + 1 then
          some (c :: ls.dropLast.flatten, t.drop ls.dropLast.flatten.length)
        else none := by
  rw [collapseStep]
  dsimp only
  rw [hls, show t.drop ls.flatten.length = r from by rw [ht, List.drop_left]]
  cases r with
  | nil =>
    rw [afterOkB_nil]
    simp only [List.head?_nil]
  | cons d X =>
    rw [afterOkB_cons]
    simp only [List.head?_cons]

theorem collapseStep_none_of (c : Char) {t : List Char}
    {ls : List (List Char)} {r : List Char}
    (hls : chainLinks t = ls) (ht : t = ls.flatten ++ r)
    (hcond : (afterOkB r = true ∧ ls.length + 1 ≤ 2) ∨
             (afterOkB r = false ∧ ls.length + 1 ≤ 3)) :
    collapseStep c t = none := by
  rw [collapseStep_eval c hls ht]
  rcases hcond with ⟨ha, hm⟩ | ⟨ha, hm⟩
  · rw [if_pos ha, if_neg (by omega)]
  · rw [if_neg (by rw [ha]; exact Bool.false_ne_true), if_neg (by omega)]

theorem collapseStep_someA_of (c : Char) {t : List Char}
    {ls : List (List Char)} {r : List Char}
    (hls : chainLinks t = ls) (ht : t = ls.flatten ++ r)
    (ha : afterOkB r = true) (hm : 3 ≤ ls.length + 1) :
    collapseStep c t = some (c :: ls.flatten, r) := by
  rw [collapseStep_eval c hls ht, if_pos ha, if_pos hm]

theorem collapseStep_someB_of (c : Char) {t : List Char}
    {ls' : List (List Char)} {lb r : List Char}
    (hls : chainLinks t = ls' ++ [lb]) (ht : t = ls'.flatten ++ (lb ++ r))
    (ha : afterOkB r = false) (hm : 4 ≤ ls'.length + 2) :
    collapseStep c t = some (c :: ls'.flatten, lb ++ r) := by
  have ht' : t = (ls' ++ [lb]).flatten ++ r := by
    rw [ht]
    simp [List.append_assoc]
  rw [collapseStep_eval c hls ht',
    if_neg (by rw [ha]; exact Bool.false_ne_true),
    if_pos (by rw [List.length_append, List.length_cons, List.length_nil]; omega),
    show (ls' ++ [lb]).dropLast = ls' from by simp,
    show t.drop ls'.flatten.length = lb ++ r from by rw [ht, List.drop_left]]

theorem collapseStep_none_inv {c : Char} {t : List Char}
    {ls : List (List Char)} {r : List Char}
    (hls : chainLinks t = ls) (ht : t = ls.flatten ++ r)
    (h : collapseStep c t = none) :
    (afterOkB r = true ∧ ls.length + 1 ≤ 2) ∨
    (afterOkB r = false ∧ ls.length + 1 ≤ 3) := by
  rw [collapseStep_eval c hls ht] at h
  by_cases ha : afterOkB r = true
  · rw [if_pos ha] at h
    left
    refine ⟨ha, ?_⟩
    by_contra hm
    rw [if_pos (by omega)] at h
    cases h
  · rw [if_neg ha] at h
    right
    refine ⟨by simpa using ha, ?_⟩
    by_contra hm
    rw [if_pos (by omega)] at h
    cases h

theorem collapseStep_some_inv {c : Char} {t span rest : List Char}
    {ls : List (List Char)} {r : List Char}
    (hls : chainLinks t = ls) (ht : t = ls.flatten ++ r)
    (h : collapseStep c t = some (span, rest)) :
    (afterOkB r = true ∧ 3 ≤ ls.length + 1 ∧
      span = c :: ls.flatten ∧ rest = r) ∨
    (afterOkB r = false ∧ 4 ≤ ls.length + 1 ∧
      ∃ ls2 lb, ls = ls2 ++ [lb] ∧ span = c :: ls2.flatten ∧
        rest = lb ++ r) := by
  rw [collapseStep_eval c hls ht] at h
  by_cases ha : afterOkB r = true
  · rw [if_pos ha] at h
    by_cases hm : 3 ≤ ls.length + 1
    · rw [if_pos hm] at h
      injection h with h'
      have h1 := congrArg Prod.fst h'
      have h2 := congrArg Prod.snd h'
      dsimp at h1 h2
      exact Or.inl ⟨ha, hm, h1.symm, h2.symm⟩
    · rw [if_neg hm] at h
      cases h
  · rw [if_neg ha] at h
    by_cases hm : 4 ≤ ls.length + 1
    · rw [if_pos hm] at h
      have hne : ls ≠ [] := by
        intro he
        rw [he, List.length_nil] at hm
        omega
      obtain ⟨ls2, lb, hlb⟩ : ∃ ls2 lb, ls = ls2 ++ [lb] :=
        ⟨ls.dropLast, ls.getLast hne, (List.dropLast_append_getLast hne).symm⟩
      have hdl : ls.dropLast = ls2 := by rw [hlb]; simp
      have hdrop : t.drop ls2.flatten.length = lb ++ r := by
        rw [ht, hlb,
          show (ls2 ++ [lb]).flatten = ls2.flatten ++ lb from by simp,
          List.append_assoc, List.drop_left]
      rw [hdl] at h
      rw [hdrop] at h
      injection h with h'
      have h1 := congrArg Prod.fst h'
      have h2 := congrArg Prod.snd h'
      dsimp at h1 h2
      exact Or.inr ⟨by simpa using ha, hm, ls2, lb, hlb, h1.symm, h2.symm⟩
    · rw [if_neg hm] at h
      cases h

theorem collapseStep_some_append {c : Char} {t span rest : List Char}
    (h : collapseStep c t = some (span, rest)) : span ++ rest = c :: t := by
  obtain ⟨hAll, r, ht, hrnil⟩ := chainLinks_decomp t
  rcases collapseStep_some_inv rfl ht h with
    ⟨_, _, hsp, hr⟩ | ⟨_, _, ls2, lb, hlb, hsp, hr⟩
  · rw [hsp, hr, List.cons_append, ← ht]
  · rw [hsp, hr, List.cons_append, ht, hlb]
    simp [List.append_assoc]

/-! ### Spaced-capitals collapse: the scan-identity invariant -/

/-- Scanning the text with the given boundary flag, every match the scan
finds has a space-free span, so each replacement is the identity. -/
inductive CInv : Bool → List Char → Prop
  | nil (b : Bool) : CInv b []
  | copy (b : Bool) (c : Char) (t : List Char) :
      (b && isCap c) = false → CInv (!isWordChar c) t → CInv b (c :: t)
  | fail (c : Char) (t : List Char) :
      isCap c = true → collapseStep c t = none → CInv false t →
      CInv true (c :: t)
  | matched (c : Char) (t span rest : List Char) :
      isCap c = true → collapseStep c t = some (span, rest) →
      (∀ x ∈ span, x ≠ ' ') → CInv false rest → CInv true (c :: t)

theorem cScan_eq_self_of_CInv {b : Bool} {t : List Char} (h : CInv b t) :
    cScan b t = t := by
  induction h with
  | nil b => exact cScan_nil b
  | copy b c t hbc _ ih => rw [cScan_copy t hbc, ih]
  | fail c t hc hcs _ ih => rw [cScan_fail (by rw [hc, Bool.and_true]) hcs, ih]
  | matched c t span rest hc hcs hsp _ ih =>
    rw [cScan_matched (by rw [hc, Bool.and_true]) hcs, ih,
      List.filter_eq_self.mpr (fun a ha => by simpa using hsp a ha),
      collapseStep_some_append hcs]

theorem collapseStep_none_of_break {c : Char} {X : List Char}
    (h : chainLinks X = []) : collapseStep c X = none := by
  apply collapseStep_none_of c (r := X) h
    (by rw [List.flatten_nil, List.nil_append])
  cases ha : afterOkB X with
  | true => exact Or.inl ⟨rfl, by simp⟩
  | false => exact Or.inr ⟨rfl, by simp⟩

/-- Scanning text on which the chain parse is empty preserves that emptiness
and the head character. -/
theorem linksA_scan_break : ∀ (r pend : List Char) (b : Bool),
    (∀ x ∈ pend, isPyWs x = true) → (pend = [] → b = false) →
    linksA pend r = [] →
    linksA pend (cScan b r) = [] ∧ (cScan b r).head? = r.head?
  | [], _, _, _, _, _ => by rw [cScan_nil]; exact ⟨rfl, rfl⟩
  | d :: X, pend, b, hp, hb, h => by
    by_cases hwd : isPyWs d = true
    · rw [linksA, if_pos hwd] at h
      have hscan := cScan_copy (b := b) (c := d) X
        (by rw [ws_not_cap hwd, Bool.and_false])
      rw [ws_not_word hwd, Bool.not_false] at hscan
      obtain ⟨h1, h2⟩ := linksA_scan_break X (d :: pend) true
        (fun z hz => by
          rcases List.mem_cons.mp hz with rfl | hz'
          · exact hwd
          · exact hp z hz')
        (by intro he; cases he) h
      rw [hscan, linksA, if_pos hwd]
      exact ⟨h1, by rw [List.head?_cons, List.head?_cons]⟩
    · have hstep : cScan b (d :: X) = d :: cScan (!isWordChar d) X := by
        by_cases hcap : isCap d = true
        · have hpend : pend = [] := by
            by_contra hpe
            rw [linksA, if_neg hwd, if_pos ⟨hcap, hpe⟩] at h
            cases h
          exact cScan_copy X (by rw [hb hpend, Bool.false_and])
        · have hcf : isCap d = false := by
            cases h' : isCap d with
            | false => rfl
            | true => exact absurd h' hcap
          exact cScan_copy X (by rw [hcf, Bool.and_false])
      rw [hstep]
      constructor
      · rw [linksA, if_neg hwd] at h ⊢
        by_cases hcp : isCap d = true ∧ pend ≠ []
        · rw [if_pos hcp] at h
          cases h
        · rw [if_neg hcp]
      · rw [List.head?_cons, List.head?_cons]

theorem cScan_break {r : List Char} (h : chainLinks r = []) :
    chainLinks (cScan false r) = [] ∧ (cScan false r).head? = r.head? :=
  linksA_scan_break r [] false (by simp) (fun _ => rfl) h

/-- A failing chain is copied through the scan verbatim: every sub-attempt
inside it fails with an even shorter chain. -/
theorem cScan_through_failed : ∀ (ls : List (List Char)) (r : List Char),
    (∀ l ∈ ls, IsLink l) → chainLinks r = [] →
    ((afterOkB r = true ∧ ls.length + 1 ≤ 2) ∨
     (afterOkB r = false ∧ ls.length + 1 ≤ 3)) →
    cScan false (ls.flatten ++ r) = ls.flatten ++ cScan false r
  | [], r, _, _, _ => by rw [List.flatten_nil, List.nil_append, List.nil_append]
  | l :: ls2, r, hAll, hbr, hcond => by
    obtain ⟨w, C, hl, hwne, hws, hC⟩ := hAll l (List.mem_cons_self _ _)
    have hall2 : ∀ z ∈ ls2, IsLink z :=
      fun z hz => hAll z (List.mem_cons_of_mem _ hz)
    have hcond2 : (afterOkB r = true ∧ ls2.length + 1 ≤ 2) ∨
        (afterOkB r = false ∧ ls2.length + 1 ≤ 3) := by
      rcases hcond with ⟨ha, hm⟩ | ⟨ha, hm⟩
      · rw [List.length_cons] at hm
        exact Or.inl ⟨ha, by omega⟩
      · rw [List.length_cons] at hm
        exact Or.inr ⟨ha, by omega⟩
    have hls : chainLinks (ls2.flatten ++ r) = ls2 := by
      rw [chainLinks, linksA_flatten_links ls2 r hall2,
        show linksA [] r = [] from hbr, List.append_nil]
    have hstep : collapseStep C (ls2.flatten ++ r) = none := by
      apply collapseStep_none_of C hls rfl
      exact hcond2
    rw [List.flatten_cons, hl, List.append_assoc, List.append_assoc,
      cScan_ws_copy w false _ hwne hws, List.singleton_append,
      cScan_fail (by rw [hC, Bool.and_true]) hstep,
      cScan_through_failed ls2 r hall2 hbr hcond2]
    simp [List.append_assoc]

/-- A failed match attempt still fails on the scanned tail: the scan copies
the failing chain and preserves the break. -/
theorem collapseStep_scan_transfer {c : Char} {t : List Char}
    (h : collapseStep c t = none) : collapseStep c (cScan false t) = none := by
  obtain ⟨hAll, r, ht, hrnil⟩ := chainLinks_decomp t
  have hcond := collapseStep_none_inv rfl ht h
  rw [ht, cScan_through_failed (chainLinks t) r hAll hrnil hcond]
  obtain ⟨hbreak, hhead⟩ := cScan_break hrnil
  have hls2 : chainLinks ((chainLinks t).flatten ++ cScan false r) =
      chainLinks t := by
    rw [chainLinks, linksA_flatten_links _ _ hAll,
      show linksA [] (cScan false r) = [] from hbreak, List.append_nil]
  have hafter : afterOkB (cScan false r) = afterOkB r := by
    rw [afterOkB, afterOkB, hhead]
  apply collapseStep_none_of c hls2 rfl
  rw [hafter]
  exact hcond

theorem CInv_ws_prepend : ∀ (w : List Char) (b : Bool) (X : List Char),
    w ≠ [] → (∀ x ∈ w, isPyWs x = true) → CInv true X → CInv b (w ++ X)
  | [], _, _, hne, _, _ => absurd rfl hne
  | x :: w', b, X, _, hws, hX => by
    have hx := hws x (List.mem_cons_self _ _)
    rw [List.cons_append]
    refine CInv.copy b x (w' ++ X) (by rw [ws_not_cap hx, Bool.and_false]) ?_
    rw [ws_not_word hx, Bool.not_false]
    cases hw' : w' with
    | nil =>
      rw [List.nil_append]
      exact hX
    | cons y w'' =>
      exact CInv_ws_prepend (y :: w'') true X (List.cons_ne_nil y w'')
        (fun z hz => hws z (List.mem_cons_of_mem _ (by rw [hw']; exact hz))) hX
termination_by w _ _ _ _ _ => w.length
decreasing_by
  simp only [List.length_cons]
  rw [hw', List.length_cons]
  omega

theorem flink_flatten_no_space {fl : List (List Char)}
    (h : ∀ l ∈ fl, IsFLink l) : ∀ x ∈ fl.flatten, x ≠ ' ' := by
  intro x hx
  obtain ⟨l, hl, hxl⟩ := List.mem_flatten.mp hx
  obtain ⟨w, C, hlw, hwprop, hC⟩ := h l hl
  rw [hlw] at hxl
  rcases List.mem_append.mp hxl with hxw | hxc
  · exact (hwprop x hxw).2
  · rw [List.mem_singleton.mp hxc]
    exact isCap_not_space hC

theorem flink_isLink {l : List Char} (h : IsFLink l) (hlen : 2 ≤ l.length) :
    IsLink l := by
  obtain ⟨w, C, hlw, hwprop, hC⟩ := h
  refine ⟨w, C, hlw, ?_, fun x hx => (hwprop x hx).1, hC⟩
  intro hwnil
  rw [hlw, hwnil, List.nil_append, List.length_singleton] at hlen
  omega

theorem flink_short {l : List Char} (h : IsFLink l) (hlen : l.length < 2) :
    ∃ C, l = [C] ∧ isCap C = true := by
  obtain ⟨w, C, hlw, hwprop, hC⟩ := h
  cases w with
  | nil =>
    rw [hlw, List.nil_append]
    exact ⟨C, rfl, hC⟩
  | cons a w' =>
    exfalso
    rw [hlw, List.length_append, List.length_cons, List.length_singleton] at hlen
    omega

theorem head_dropWhileL_false {α : Type} (p : α → Bool) :
    ∀ (l : List α) (c : α) (cs : List α), l.dropWhile p = c :: cs → p c = false
  | [], _, _, h => by cases h
  | a :: t, c, cs, h => by
    by_cases ha : p a = true
    · rw [List.dropWhile_cons, if_pos ha] at h
      exact head_dropWhileL_false p t c cs h
    · rw [List.dropWhile_cons, if_neg ha] at h
      injection h with h1 _
      rw [← h1]
      cases hpa : p a with
      | false => rfl
      | true => exact absurd hpa ha

/-- The tail entering the walk through a replaced span: its chain parse, the
remainder after it, and the invariant, in the two shapes a replacement can
leave (full match: empty tail chain, non-word or absent next character;
backtracked match: exactly the one dropped link, then a word character). -/
def TailOk (YS : List Char) (tls : List (List Char)) (Zr : List Char) : Prop :=
  chainLinks YS = tls ∧ (∀ l ∈ tls, IsLink l) ∧ YS = tls.flatten ++ Zr ∧
  chainLinks Zr = [] ∧ CInv false YS ∧
  ((tls = [] ∧ afterOkB Zr = true) ∨
   ((∃ l, tls = [l]) ∧ afterOkB Zr = false))

/-- Walking a sequence of space-free (filtered) links sitting before a tail
in one of the two post-replacement shapes: every match found is space-free,
whether it lies inside the links, runs to the tail boundary, or backtracks
out of the tail's dropped link. -/
theorem cWalk : ∀ (n : Nat) (fls : List (List Char)) (YS : List Char)
    (tls : List (List Char)) (Zr : List Char), fls.length ≤ n →
    (∀ l ∈ fls, IsFLink l) → TailOk YS tls Zr →
    CInv false (fls.flatten ++ YS) ∧
    (∀ C, isCap C = true → CInv true (C :: (fls.flatten ++ YS)))
  | n, fls, YS, tls, Zr, hn, hf, ht => by
    obtain ⟨htls, htlinks, hYS, hZr, hinv, hshape⟩ := ht
    have part1 : CInv false (fls.flatten ++ YS) := by
      cases hfls : fls with
      | nil =>
        rw [List.flatten_nil, List.nil_append]
        exact hinv
      | cons l fls2 =>
        have hnpos : fls.length = fls2.length + 1 := by
          rw [hfls, List.length_cons]
        have hlen2 : fls2.length ≤ n - 1 := by omega
        have hn1 : n - 1 < n := by omega
        have hf2 : ∀ z ∈ fls2, IsFLink z := fun z hz =>
          hf z (by rw [hfls]; exact List.mem_cons_of_mem _ hz)
        have hrec := cWalk (n - 1) fls2 YS tls Zr hlen2 hf2
          ⟨htls, htlinks, hYS, hZr, hinv, hshape⟩
        obtain ⟨w, C, hlw, hwprop, hC⟩ :=
          hf l (by rw [hfls]; exact List.mem_cons_self _ _)
        rw [List.flatten_cons, hlw, List.append_assoc, List.append_assoc,
          List.singleton_append]
        by_cases hw : w = []
        · rw [hw, List.nil_append]
          refine CInv.copy false C _ (by rw [Bool.false_and]) ?_
          rw [isCap_word hC, Bool.not_true]
          exact hrec.1
        · exact CInv_ws_prepend w false _ hw (fun x hx => (hwprop x hx).1)
            (hrec.2 C hC)
    have part2 : ∀ C, isCap C = true →
        CInv true (C :: (fls.flatten ++ YS)) := by
      intro C hC
      obtain ⟨g, hg⟩ : ∃ g, g = fls.takeWhile (fun l => decide (2 ≤ l.length)) :=
        ⟨_, rfl⟩
      obtain ⟨bb, hbbdef⟩ :
          ∃ bb, bb = fls.dropWhile (fun l => decide (2 ≤ l.length)) :=
        ⟨_, rfl⟩
      have hsplit : g ++ bb = fls := by
        rw [hg, hbbdef]
        exact List.takeWhile_append_dropWhile _ _
      have hgf : ∀ l ∈ g, IsFLink l := fun l hl =>
        hf l (by rw [← hsplit]; exact List.mem_append_left bb hl)
      have hgl : ∀ l ∈ g, IsLink l := by
        intro l hl
        refine flink_isLink (hgf l hl) ?_
        have := List.mem_takeWhile_imp (by rw [← hg]; exact hl)
        simpa using this
      cases hbx : bb with
      | nil =>
        have hfg : fls = g := by rw [← hsplit, hbx, List.append_nil]
        have hchain : chainLinks (fls.flatten ++ YS) = g ++ tls := by
          rw [hfg, chainLinks, linksA_flatten_links g YS hgl,
            show linksA [] YS = tls from htls]
        rcases hshape with ⟨htlsnil, hA⟩ | ⟨⟨lB, hlB⟩, hA⟩
        · rw [htlsnil, List.append_nil] at hchain
          have hZrY : YS = Zr := by
            rw [hYS, htlsnil, List.flatten_nil, List.nil_append]
          have htext2 : fls.flatten ++ YS = g.flatten ++ Zr := by
            rw [hfg, hZrY]
          by_cases hm : 3 ≤ g.length + 1
          · have hstep := collapseStep_someA_of C hchain htext2 hA hm
            refine CInv.matched C _ _ _ hC hstep ?_ ?_
            · intro x hx
              rcases List.mem_cons.mp hx with rfl | hx'
              · exact isCap_not_space hC
              · exact flink_flatten_no_space hgf x hx'
            · rw [← hZrY]
              exact hinv
          · have hstep := collapseStep_none_of C hchain htext2
              (Or.inl ⟨hA, by omega⟩)
            exact CInv.fail C _ hC hstep part1
        · rw [hlB] at hchain
          have hYS2 : YS = lB ++ Zr := by
            rw [hYS, hlB, List.flatten_cons, List.flatten_nil, List.append_nil]
          have htext3 : fls.flatten ++ YS = g.flatten ++ (lB ++ Zr) := by
            rw [hfg, hYS2]
          by_cases hm : 4 ≤ g.length + 2
          · have hstep := collapseStep_someB_of C hchain htext3 hA hm
            refine CInv.matched C _ _ _ hC hstep ?_ ?_
            · intro x hx
              rcases List.mem_cons.mp hx with rfl | hx'
              · exact isCap_not_space hC
              · exact flink_flatten_no_space hgf x hx'
            · rw [← hYS2]
              exact hinv
          · have htext4 : fls.flatten ++ YS = (g ++ [lB]).flatten ++ Zr := by
              rw [htext3, List.flatten_append, List.flatten_cons,
                List.flatten_nil, List.append_nil, List.append_assoc]
            have hstep := collapseStep_none_of C hchain htext4
              (Or.inr ⟨hA, by
                rw [List.length_append, List.length_cons, List.length_nil]
                omega⟩)
            exact CInv.fail C _ hC hstep part1
      | cons l0 bb2 =>
        have hl0mem : l0 ∈ fls := by
          rw [← hsplit, hbx]
          exact List.mem_append_right _ (List.mem_cons_self _ _)
        have hl0short : l0.length < 2 := by
          have := head_dropWhileL_false (fun l => decide (2 ≤ l.length)) fls l0
            bb2 (by rw [← hbbdef]; exact hbx)
          simpa using this
        obtain ⟨C0, hl0, hC0⟩ := flink_short (hf l0 hl0mem) hl0short
        have htext : fls.flatten ++ YS =
            g.flatten ++ (C0 :: (bb2.flatten ++ YS)) := by
          rw [← hsplit, hbx, hl0]
          simp [List.append_assoc]
        have hchain : chainLinks (fls.flatten ++ YS) = g := by
          rw [htext, chainLinks, linksA_flatten_links g _ hgl,
            linksA_nil_of_head _ (isCap_not_ws hC0), List.append_nil]
        have hafter : afterOkB (C0 :: (bb2.flatten ++ YS)) = false := by
          rw [afterOkB_cons, isCap_word hC0, Bool.not_true]
        have hlenfls : fls.length = g.length + (bb2.length + 1) := by
          rw [← hsplit, hbx, List.length_append, List.length_cons]
        by_cases hm : 3 ≤ g.length
        · have hgne : g ≠ [] := by
            intro he
            rw [he, List.length_nil] at hm
            omega
          have hgsplit : g.dropLast ++ [g.getLast hgne] = g :=
            List.dropLast_append_getLast hgne
          have hchain2 : chainLinks (fls.flatten ++ YS) =
              g.dropLast ++ [g.getLast hgne] := by
            rw [hchain, hgsplit]
          have hfl : g.flatten = g.dropLast.flatten ++ g.getLast hgne := by
            conv_lhs => rw [← hgsplit]
            rw [List.flatten_append, List.flatten_cons, List.flatten_nil,
              List.append_nil]
          have htext2 : fls.flatten ++ YS = g.dropLast.flatten ++
              (g.getLast hgne ++ (C0 :: (bb2.flatten ++ YS))) := by
            rw [htext, hfl, List.append_assoc]
          have hstep := collapseStep_someB_of C hchain2 htext2 hafter
            (by rw [List.length_dropLast]; omega)
          refine CInv.matched C _ _ _ hC hstep ?_ ?_
          · intro x hx
            rcases List.mem_cons.mp hx with rfl | hx'
            · exact isCap_not_space hC
            · exact flink_flatten_no_space
                (fun l hl => hgf l ((List.dropLast_sublist g).subset hl)) x hx'
          · have hrec2 := cWalk (n - 1) (g.getLast hgne :: ([C0] :: bb2)) YS
              tls Zr
              (by rw [List.length_cons, List.length_cons]; omega)
              (by intro z hz
                  rcases List.mem_cons.mp hz with rfl | hz'
                  · exact hgf _ (List.getLast_mem hgne)
                  · rcases List.mem_cons.mp hz' with rfl | hz''
                    · exact ⟨[], C0, by rw [List.nil_append],
                        fun x hx => absurd hx (List.not_mem_nil x), hC0⟩
                    · exact hf z (by
                        rw [← hsplit, hbx]
                        exact List.mem_append_right _
                          (List.mem_cons_of_mem _ hz'')))
              ⟨htls, htlinks, hYS, hZr, hinv, hshape⟩
            have hflat : (g.getLast hgne :: ([C0] :: bb2)).flatten ++ YS =
                g.getLast hgne ++ (C0 :: (bb2.flatten ++ YS)) := by
              simp [List.append_assoc]
            rw [← hflat]
            exact hrec2.1
        · have hstep := collapseStep_none_of C hchain htext
            (Or.inr ⟨hafter, by omega⟩)
          exact CInv.fail C _ hC hstep part1
    exact ⟨part1, part2⟩
termination_by n _ _ _ _ _ _ _ => n
decreasing_by
  all_goals omega

theorem filterLink_flink {l : List Char} (h : IsLink l) :
    IsFLink (l.filter (fun x => x ≠ ' ')) := by
  obtain ⟨w, C, hlw, hwne, hws, hC⟩ := h
  refine ⟨w.filter (fun x => x ≠ ' '), C, ?_, ?_, hC⟩
  · rw [hlw, List.filter_append]
    congr 1
    simp [isCap_not_space hC]
  · intro x hx
    have hmem := List.mem_filter.mp hx
    exact ⟨hws x hmem.1, by simpa using hmem.2⟩

/-- The scan's output satisfies the invariant: every match the scan would
find in it is space-free. -/
theorem CInv_cScan : ∀ (n : Nat) (b : Bool) (t : List Char), t.length ≤ n →
    CInv b (cScan b t)
  | _, b, [], _ => by rw [cScan_nil]; exact CInv.nil b
  | n, b, c :: t', hn => by
    rw [List.length_cons] at hn
    cases hbc : b && isCap c with
    | false =>
      rw [cScan_copy t' hbc]
      exact CInv.copy b c _ hbc (CInv_cScan (n - 1) _ t' (by omega))
    | true =>
      have hcap : isCap c = true := by
        cases hcc : isCap c with
        | true => rfl
        | false =>
          rw [hcc, Bool.and_false] at hbc
          cases hbc
      have hbtrue : b = true := by
        cases b with
        | true => rfl
        | false =>
          rw [Bool.false_and] at hbc
          cases hbc
      subst hbtrue
      cases hcs : collapseStep c t' with
      | none =>
        rw [cScan_fail hbc hcs]
        exact CInv.fail c _ hcap (collapseStep_scan_transfer hcs)
          (CInv_cScan (n - 1) false t' (by omega))
      | some pr =>
        obtain ⟨span, rest⟩ := pr
        rw [cScan_matched hbc hcs]
        obtain ⟨hAll, r, htdec, hrnil⟩ := chainLinks_decomp t'
        have hrlen : r.length ≤ t'.length := by
          rw [htdec, List.length_append]
          omega
        have hZinv : CInv false (cScan false r) :=
          CInv_cScan (n - 1) false r (by omega)
        obtain ⟨hZbreak, hZhead⟩ := cScan_break hrnil
        have hafZ : afterOkB (cScan false r) = afterOkB r := by
          rw [afterOkB, afterOkB, hZhead]
        rcases collapseStep_some_inv rfl htdec hcs with
          ⟨hA, hm, hsp, hrx⟩ | ⟨hA, hm, ls2, lb, hlb, hsp, hrx⟩
        · subst hsp
          rw [hrx]
          have hfilter :
              (c :: (chainLinks t').flatten).filter (fun x => x ≠ ' ') =
              c :: ((chainLinks t').map
                (List.filter (fun x => x ≠ ' '))).flatten := by
            rw [List.filter_cons, if_pos (by simpa using isCap_not_space hcap),
              List.filter_flatten]
          rw [hfilter]
          have htail : TailOk (cScan false r) [] (cScan false r) :=
            ⟨hZbreak, fun l hl => absurd hl (List.not_mem_nil l),
              by rw [List.flatten_nil, List.nil_append], hZbreak, hZinv,
              Or.inl ⟨rfl, by rw [hafZ]; exact hA⟩⟩
          have hw := cWalk
            ((chainLinks t').map (List.filter (fun x => x ≠ ' '))).length
            ((chainLinks t').map (List.filter (fun x => x ≠ ' ')))
            (cScan false r) [] (cScan false r) le_rfl
            (by intro z hz
                obtain ⟨l, hl, hlz⟩ := List.mem_map.mp hz
                rw [← hlz]
                exact filterLink_flink (hAll l hl))
            htail
          exact hw.2 c hcap
        · subst hsp
          subst hrx
          have hlbmem : lb ∈ chainLinks t' := by
            rw [hlb]
            exact List.mem_append_right _ (List.mem_cons_self _ _)
          obtain ⟨wl, Cm, hlbw, hwlne, hwlws, hCm⟩ := hAll lb hlbmem
          have hYval : cScan false (lb ++ r) = wl ++ (Cm :: cScan false r) := by
            rw [hlbw, List.append_assoc, List.singleton_append,
              cScan_ws_copy wl false _ hwlne hwlws,
              cScan_fail (by rw [hCm, Bool.and_true])
                (collapseStep_none_of_break hrnil)]
          have hYchain : chainLinks (wl ++ (Cm :: cScan false r)) = [lb] := by
            rw [chainLinks, linksA_ws_accum wl [] _ hwlws, linksA,
              if_neg (by rw [isCap_not_ws hCm]; exact Bool.false_ne_true),
              if_pos ⟨hCm, by rw [List.append_nil]; simpa using hwlne⟩,
              List.append_nil, List.reverse_reverse, ← hlbw,
              show linksA [] (cScan false r) = [] from hZbreak]
          have hYflat : wl ++ (Cm :: cScan false r) =
              [lb].flatten ++ cScan false r := by
            rw [List.flatten_cons, List.flatten_nil, List.append_nil, hlbw,
              List.append_assoc, List.singleton_append]
          have hYinv : CInv false (wl ++ (Cm :: cScan false r)) :=
            CInv_ws_prepend wl false _ hwlne hwlws
              (CInv.fail Cm _ hCm (collapseStep_none_of_break hZbreak) hZinv)
          have htail : TailOk (wl ++ (Cm :: cScan false r)) [lb]
              (cScan false r) :=
            ⟨hYchain,
              (by intro z hz
                  rw [List.mem_singleton.mp hz]
                  exact hAll lb hlbmem),
              hYflat, hZbreak, hYinv,
              Or.inr ⟨⟨lb, rfl⟩, by rw [hafZ]; exact hA⟩⟩
          have hfilter : (c :: ls2.flatten).filter (fun x => x ≠ ' ') =
              c :: (ls2.map (List.filter (fun x => x ≠ ' '))).flatten := by
            rw [List.filter_cons, if_pos (by simpa using isCap_not_space hcap),
              List.filter_flatten]
          rw [hfilter, hYval]
          have hw := cWalk (ls2.map (List.filter (fun x => x ≠ ' '))).length
            (ls2.map (List.filter (fun x => x ≠ ' ')))
            (wl ++ (Cm :: cScan false r)) [lb] (cScan false r) le_rfl
            (by intro z hz
                obtain ⟨l, hl, hlz⟩ := List.mem_map.mp hz
                rw [← hlz]
                refine filterLink_flink (hAll l ?_)
                rw [hlb]
                exact List.mem_append_left _ hl)
            htail
          exact hw.2 c hcap
termination_by n _ _ _ => n
decreasing_by
  all_goals simp_wf
  all_goals simp only [List.length_cons] at hn
  all_goals omega

/-- The spaced-capitals collapse is idempotent: its output satisfies the scan
invariant, on which the scan is the identity. -/
theorem collapse_idem (s : List Char) :
    collapse_spaced_capital_sequences (collapse_spaced_capital_sequences s) =
      collapse_spaced_capital_sequences s := by
  rw [collapse_eq_cScan, collapse_eq_cScan]
  exact cScan_eq_self_of_CInv (CInv_cScan s.length true s le_rfl)

/-- C9: each of the five text-repair functions — the Celsius-glyph repair of
lines 207–211 (`fixCelsius`), the CJK script removal (`removeChinese`), the
URL removal (`remove_urls`), the spaced-capitals collapse
(`collapse_spaced_capital_sequences`) and the numeric heading-prefix removal
(`removeNumericHeading`) — is idempotent: applying it twice to any input
string yields the same result as applying it once. -/
theorem c9_idempotent :
    (∀ s : List Char, fixCelsius (fixCelsius s) = fixCelsius s) ∧
    (∀ s : List Char, removeChinese (removeChinese s) = removeChinese s) ∧
    (∀ s : List Char, remove_urls (remove_urls s) = remove_urls s) ∧
    (∀ s : List Char,
      collapse_spaced_capital_sequences
        (collapse_spaced_capital_sequences s) =
        collapse_spaced_capital_sequences s) ∧
    (∀ s : List Char,
      removeNumericHeading (removeNumericHeading s) =
        removeNumericHeading s) :=
  ⟨fixCelsius_idem, removeChinese_idem, remove_urls_idem, collapse_idem,
    removeNumericHeading_idem⟩

end CleanPdf
